import Mathlib

set_option linter.unusedSectionVars false

/-!
Verification of `PooledMap.hpp`: a red-black-tree ordered map whose nodes come
from a segmented object pool.

The C++ tree is a pointer structure with `left`, `right` and `parent` links.
We embed it shallowly as an inductive tree plus an explicit path (zipper):
a node is `Tree.node color left key value right`, and the `parent` chain of a
focused node is represented by a `Path`, a list of `Frame`s recording, for each
ancestor, its color, key, value, which side the focus hangs on, and the sibling
subtree.  The imperative loops of the source (`operator[]` descent, `find`,
`contains`, `erase` descent, `minimum`, `fix_insert`, `fix_erase`,
`inorder_traverse`, `clear`) become recursive functions; rotations are the
corresponding reshufflings of the focused subtree and its frames.

The null-pointer dereferences that `fix_erase` can perform on the sibling `w`
(`w->left` / `w->right` when `w == nullptr`, and `rotate_right(w)` when
`w->left == nullptr`) are embedded as an `Option`: `none` is the error branch.

`SegmentedObjectPool.hpp` is not part of the sources; the pool (`Pool`) is
modelled from the specification (see its doc comment).
-/

namespace PooledMap

/-- Node colors, from `enum Color { RED, BLACK }`. -/
inductive Color where
  | RED
  | BLACK
deriving DecidableEq, Repr

export Color (RED BLACK)

/-- The tree of `struct Node` records: `nil` is the null pointer, `node c l k v r`
is a node with color `c`, key `k`, value `v` and child pointers `l`, `r`.
The `parent` pointer of the source is represented by `Path` below. -/
inductive Tree (α β : Type) where
  | nil
  | node (color : Color) (left : Tree α β) (key : α) (value : β) (right : Tree α β)
deriving DecidableEq, Repr

/-- One step of a parent chain: the focus is the left (`left`) or right (`right`)
child of a node with the recorded color, key, value, whose other child is `sib`. -/
inductive Frame (α β : Type) where
  | left (color : Color) (key : α) (value : β) (sib : Tree α β)
  | right (color : Color) (key : α) (value : β) (sib : Tree α β)
deriving DecidableEq, Repr

/-- A parent chain, innermost frame first: the embedding of the `parent` pointers
from a focused position up to the root. -/
abbrev Path (α β : Type) := List (Frame α β)

variable {α β : Type}

/-- Rebuild the whole tree from a focused subtree and its parent chain. -/
def plug : Path α β → Tree α β → Tree α β
  | [], t => t
  | Frame.left c k v sib :: p, t => plug p (Tree.node c t k v sib)
  | Frame.right c k v sib :: p, t => plug p (Tree.node c sib k v t)

/-- Root recoloring `x->color = BLACK` (no effect on a null pointer). -/
def setBlack : Tree α β → Tree α β
  | Tree.nil => Tree.nil
  | Tree.node _ l k v r => Tree.node BLACK l k v r

/-- Whether a (possibly null) node is RED. -/
def isRed : Tree α β → Bool
  | Tree.node RED _ _ _ _ => true
  | _ => false

/-- In-order entry list: the visit sequence of `inorder_traverse` from
`for_each` (left subtree, node, right subtree). -/
def inorder : Tree α β → List (α × β)
  | Tree.nil => []
  | Tree.node _ l k v r => inorder l ++ (k, v) :: inorder r

/-- The in-order key sequence. -/
def keys (t : Tree α β) : List α := (inorder t).map Prod.fst

variable [LinearOrder α]

/-- The result of the shared binary-search descent: either the focused node
with its parent chain, or the parent chain of the null position reached. -/
inductive Descent (α β : Type) where
  | found (p : Path α β) (c : Color) (l : Tree α β) (k : α) (v : β) (r : Tree α β)
  | notFound (p : Path α β)

/-- The descent loop shared by `operator[]` and `erase`:
`while (cur) { if (key == k) break; parent = cur; cur = (key < k) ? left : right }`.
The accumulated path plays the role of the `parent` chain. -/
def descend (key : α) : Tree α β → Path α β → Descent α β
  | Tree.nil, p => Descent.notFound p
  | Tree.node c l k v r, p =>
    if key = k then Descent.found p c l k v r
    else if key < k then descend key l (Frame.left c k v r :: p)
    else descend key r (Frame.right c k v l :: p)

/-- `find`: returns a copy of the value if the key is found, otherwise a
default-constructed `Value()`. -/
def find [Inhabited β] (key : α) : Tree α β → β
  | Tree.nil => default
  | Tree.node _ l k v r =>
    if key = k then v else if key < k then find key l else find key r

/-- `contains`: the same descent, boolean result. -/
def contains (key : α) : Tree α β → Bool
  | Tree.nil => false
  | Tree.node _ l k _v r =>
    if key = k then true else if key < k then contains key l else contains key r

/-- The `fix_insert` loop over the parent chain of the red focus `z`.
The loop runs while the parent exists and is RED; each numbered case matches
the corresponding case of the source.  Rotations are expressed as the
rebuilt subtree that the source pointer surgery produces.  The branch where a
RED parent has no grandparent would dereference null in the source; it is
unreachable from valid trees and simply stops the loop here. -/
def fixInsert : Path α β → Tree α β → Tree α β
  | [], z => z
  | f1 :: rest, z =>
    match f1 with
    | Frame.left pc pk pv psib =>
      if pc = RED then
        match rest with
        | [] => plug [f1] z
        | f2 :: rest2 =>
          match f2 with
          | Frame.left _ gk gv uncle =>
            match uncle with
            | Tree.node RED ul uk uv ur =>
              -- Case 1: uncle RED: recolor parent, uncle BLACK, grandparent RED
              fixInsert rest2
                (Tree.node RED (Tree.node BLACK z pk pv psib) gk gv
                  (Tree.node BLACK ul uk uv ur))
            | _ =>
              -- z is an outer (left-left) grandchild: Case 3 only
              plug rest2
                (Tree.node BLACK z pk pv (Tree.node RED psib gk gv uncle))
          | Frame.right _ gk gv uncle =>
            match uncle with
            | Tree.node RED ul uk uv ur =>
              fixInsert rest2
                (Tree.node RED (Tree.node BLACK ul uk uv ur) gk gv
                  (Tree.node BLACK z pk pv psib))
            | _ =>
              -- z is an inner (right-left) grandchild: Case 2 then Case 3
              match z with
              | Tree.nil => plug (f1 :: rest) z
              | Tree.node _ zl zk zv zr =>
                plug rest2
                  (Tree.node BLACK (Tree.node RED uncle gk gv zl) zk zv
                    (Tree.node pc zr pk pv psib))
      else plug (f1 :: rest) z
    | Frame.right pc pk pv psib =>
      if pc = RED then
        match rest with
        | [] => plug [f1] z
        | f2 :: rest2 =>
          match f2 with
          | Frame.right _ gk gv uncle =>
            match uncle with
            | Tree.node RED ul uk uv ur =>
              fixInsert rest2
                (Tree.node RED (Tree.node BLACK ul uk uv ur) gk gv
                  (Tree.node BLACK psib pk pv z))
            | _ =>
              -- outer (right-right) grandchild: Case 3 only
              plug rest2
                (Tree.node BLACK (Tree.node RED uncle gk gv psib) pk pv z)
          | Frame.left _ gk gv uncle =>
            match uncle with
            | Tree.node RED ul uk uv ur =>
              fixInsert rest2
                (Tree.node RED (Tree.node BLACK psib pk pv z) gk gv
                  (Tree.node BLACK ul uk uv ur))
            | _ =>
              -- inner (left-right) grandchild: Case 2 then Case 3
              match z with
              | Tree.nil => plug (f1 :: rest) z
              | Tree.node _ zl zk zv zr =>
                plug rest2
                  (Tree.node BLACK (Tree.node pc psib pk pv zl) zk zv
                    (Tree.node RED zr gk gv uncle))
      else plug (f1 :: rest) z

/-- The tree produced by `operator[]` (upsert): unchanged when the key is
found; otherwise a new RED node with a default value is linked at the null
position reached by the descent, `fix_insert` runs, and finally
`root->color = BLACK`. -/
def insertTree [Inhabited β] (key : α) (t : Tree α β) : Tree α β :=
  match descend key t [] with
  | Descent.found _ _ _ _ _ _ => t
  | Descent.notFound p =>
    setBlack (fixInsert p (Tree.node RED Tree.nil key default Tree.nil))

/-- The value the reference returned by `operator[]` exposes: the stored value
when the key is found, otherwise the default-constructed value of the new node. -/
def upsertRead [Inhabited β] (key : α) (t : Tree α β) : β :=
  match descend key t [] with
  | Descent.found _ _ _ _ v _ => v
  | Descent.notFound _ => default

/-- Models a write through the reference returned by `operator[]`:
replaces the stored value at an existing key. -/
def writeAt (key : α) (v : β) : Tree α β → Tree α β
  | Tree.nil => Tree.nil
  | Tree.node c l k w r =>
    if key = k then Tree.node c l k v r
    else if key < k then Tree.node c (writeAt key v l) k w r
    else Tree.node c l k w (writeAt key v r)

/-- The `minimum` walk of `erase` on a non-null subtree, as a splitter:
it returns the parent chain of the leftmost node (frames pushed while walking
left, relative to the given accumulator) together with the fields of that node
(whose left child is null). -/
def minSplit (c : Color) (l : Tree α β) (k : α) (v : β) (r : Tree α β)
    (acc : Path α β) : Path α β × Color × α × β × Tree α β :=
  match l with
  | Tree.nil => (acc, c, k, v, r)
  | Tree.node lc ll lk lv lr => minSplit lc ll lk lv lr (Frame.left c k v r :: acc)

/-- The `fix_erase` loop.  The focus `x` (possibly null) sits at the hole
described by the path; the head frame is `x_parent` and its sibling subtree is
`w`.  `none` is the error branch: the unguarded dereference of `w` (or of
`w->left` inside `rotate_right(w)`) when it is null.  Each numbered case
mirrors the source; Case 1 transforms the frames and falls through to the
re-tested cases with the refetched sibling, and Cases 3 and 4 return the
rebuilt, replugged tree with the root forced BLACK (`x = root` exits the loop
and the trailing `if (x) x->color = BLACK` runs). -/
def fixErase (p : Path α β) (x : Tree α β) : Option (Tree α β) :=
  match p with
  | [] => some (setBlack x)
  | f :: rest =>
    if _h : isRed x then some (plug (f :: rest) (setBlack x))
    else
      match f with
      | Frame.left pc pk pv w =>
        match w with
        | Tree.node RED wl wk wv wr =>
          -- Case 1: sibling RED: recolor, rotate left at the parent, refetch w
          match wl with
          | Tree.nil => none
          | Tree.node _ wl2 wk2 wv2 wr2 =>
            if !(isRed wl2) && !(isRed wr2) then
              -- Case 2 after Case 1
              fixErase (Frame.left BLACK wk wv wr :: rest)
                (Tree.node RED x pk pv (Tree.node RED wl2 wk2 wv2 wr2))
            else if !(isRed wr2) then
              -- Case 3 then Case 4 after Case 1
              match wl2 with
              | Tree.nil => none
              | Tree.node _ wl3 wk3 wv3 wr3 =>
                some (setBlack (plug (Frame.left BLACK wk wv wr :: rest)
                  (Tree.node RED (Tree.node BLACK x pk pv wl3) wk3 wv3
                    (Tree.node BLACK wr3 wk2 wv2 wr2))))
            else
              -- Case 4 after Case 1
              some (setBlack (plug (Frame.left BLACK wk wv wr :: rest)
                (Tree.node RED (Tree.node BLACK x pk pv wl2) wk2 wv2
                  (setBlack wr2))))
        | Tree.nil => none
        | Tree.node _ wl wk wv wr =>
          if !(isRed wl) && !(isRed wr) then
            -- Case 2: both children of w BLACK: recolor w RED and move up
            fixErase rest (Tree.node pc x pk pv (Tree.node RED wl wk wv wr))
          else if !(isRed wr) then
            -- Case 3 then Case 4
            match wl with
            | Tree.nil => none
            | Tree.node _ wll wlk wlv wlr =>
              some (setBlack (plug rest
                (Tree.node pc (Tree.node BLACK x pk pv wll) wlk wlv
                  (Tree.node BLACK wlr wk wv wr))))
          else
            -- Case 4
            some (setBlack (plug rest
              (Tree.node pc (Tree.node BLACK x pk pv wl) wk wv (setBlack wr))))
      | Frame.right pc pk pv w =>
        match w with
        | Tree.node RED wl wk wv wr =>
          match wr with
          | Tree.nil => none
          | Tree.node _ wl2 wk2 wv2 wr2 =>
            if !(isRed wr2) && !(isRed wl2) then
              fixErase (Frame.right BLACK wk wv wl :: rest)
                (Tree.node RED (Tree.node RED wl2 wk2 wv2 wr2) pk pv x)
            else if !(isRed wl2) then
              match wr2 with
              | Tree.nil => none
              | Tree.node _ wl3 wk3 wv3 wr3 =>
                some (setBlack (plug (Frame.right BLACK wk wv wl :: rest)
                  (Tree.node RED (Tree.node BLACK wl2 wk2 wv2 wl3) wk3 wv3
                    (Tree.node BLACK wr3 pk pv x))))
            else
              some (setBlack (plug (Frame.right BLACK wk wv wl :: rest)
                (Tree.node RED (setBlack wl2) wk2 wv2
                  (Tree.node BLACK wr2 pk pv x))))
        | Tree.nil => none
        | Tree.node _ wl wk wv wr =>
          if !(isRed wr) && !(isRed wl) then
            fixErase rest (Tree.node pc (Tree.node RED wl wk wv wr) pk pv x)
          else if !(isRed wl) then
            match wr with
            | Tree.nil => none
            | Tree.node _ wrl wrk wrv wrr =>
              some (setBlack (plug rest
                (Tree.node pc (Tree.node BLACK wl wk wv wrl) wrk wrv
                  (Tree.node BLACK wrr pk pv x))))
          else
            some (setBlack (plug rest
              (Tree.node pc (setBlack wl) wk wv (Tree.node BLACK wr pk pv x))))
termination_by p.length + (if isRed x then 0 else 1)
decreasing_by
  all_goals simp_all [isRed]
  all_goals first
    | omega
    | (split <;> omega)

/-- The structural part of `erase` after the node `z` has been located at
path `p`: the three deletion cases, the transplants and successor splice, and
the conditional `fix_erase` call (run only when the removed color is BLACK). -/
def eraseNode (p : Path α β) (zc : Color) (zl : Tree α β) (_zk : α) (_zv : β)
    (zr : Tree α β) : Option (Tree α β) :=
  match zl with
  | Tree.nil =>
    -- no left child: transplant the right child into the hole
    if zc = BLACK then fixErase p zr else some (plug p zr)
  | Tree.node zlc zll zlk zlv zlr =>
    match zr with
    | Tree.nil =>
      -- no right child: transplant the left child into the hole
      if zc = BLACK then fixErase p (Tree.node zlc zll zlk zlv zlr)
      else some (plug p (Tree.node zlc zll zlk zlv zlr))
    | Tree.node zrc zrl zrk zrv zrr =>
      -- both children: splice the in-order successor y out of the right
      -- subtree, transplant it into the position of z with the color of z;
      -- the replacement x = y->right sits where y was.
      match minSplit zrc zrl zrk zrv zrr [] with
      | (q, yc, yk, yv, yr) =>
        let pfull := q ++ Frame.right zc yk yv (Tree.node zlc zll zlk zlv zlr) :: p
        if yc = BLACK then fixErase pfull yr else some (plug pfull yr)

/-- The outcome of `erase`: key not found (returns 0), the error branch of
`fix_erase`, or the rebuilt tree (returns 1). -/
inductive EraseResult (α β : Type) where
  | notFound
  | fail
  | removed (t : Tree α β)

/-- The full `erase` on the tree: descent, then the deletion cases. -/
def eraseTree (key : α) (t : Tree α β) : EraseResult α β :=
  match descend key t [] with
  | Descent.notFound _ => EraseResult.notFound
  | Descent.found p c l k v r =>
    match eraseNode p c l k v r with
    | none => EraseResult.fail
    | some t2 => EraseResult.removed t2

/-- Modelled from the spec: `SegmentedObjectPool.hpp` is referenced by the
source but not among the given files.  Per the specification, `create` pops
from the free list if non-empty, else bump-allocates from the current segment
if it has capacity, else allocates a new segment (of `segCapacity` slots) and
bump-allocates from it; `recycle` pushes the slot onto the free list.  Only
the slot counts are modelled: `freeSlots` is the length of the free list,
`bumpRemaining` the unused slots of the current segment, `segments` the number
of segments allocated so far. -/
structure Pool where
  segCapacity : Nat
  freeSlots : Nat
  bumpRemaining : Nat
  segments : Nat
deriving DecidableEq, Repr

/-- Modelled from the spec: allocation preference order of `create`. -/
def Pool.create (p : Pool) : Pool :=
  if p.freeSlots > 0 then { p with freeSlots := p.freeSlots - 1 }
  else if p.bumpRemaining > 0 then { p with bumpRemaining := p.bumpRemaining - 1 }
  else { p with segments := p.segments + 1, bumpRemaining := p.segCapacity - 1 }

/-- Modelled from the spec: `recycle` pushes the slot onto the free list. -/
def Pool.recycle (p : Pool) : Pool := { p with freeSlots := p.freeSlots + 1 }

/-- The map object: `root`, `size_`, and the pool its nodes live in. -/
structure PMap (α β : Type) where
  root : Tree α β
  size_ : Nat
  pool : Pool
deriving DecidableEq, Repr

/-- A fresh map over a fresh pool with the given segment capacity. -/
def emptyMap (cap : Nat) : PMap α β := ⟨Tree.nil, 0, ⟨cap, 0, 0, 0⟩⟩

/-- The state effect of `operator[]` (upsert): on a hit nothing changes and no
node is allocated; on a miss the pool creates one node, the tree gains the new
entry, and `++size_`. -/
def upsertMap [Inhabited β] (key : α) (s : PMap α β) : PMap α β :=
  match descend key s.root [] with
  | Descent.found _ _ _ _ _ _ => s
  | Descent.notFound p =>
    { root := setBlack (fixInsert p (Tree.node RED Tree.nil key default Tree.nil)),
      size_ := s.size_ + 1,
      pool := s.pool.create }

/-- The state effect and return value of `erase`: `some (state, count)`, or
`none` for the `fix_erase` error branch.  On a hit the node is recycled to the
pool and `--size_`. -/
def eraseMap (key : α) (s : PMap α β) : Option (PMap α β × Nat) :=
  match eraseTree key s.root with
  | EraseResult.notFound => some (s, 0)
  | EraseResult.fail => none
  | EraseResult.removed t2 =>
    some ({ root := t2, size_ := s.size_ - 1, pool := s.pool.recycle }, 1)

/-- `clear` as called by the destructor: a post-order walk recycling every
node back to the pool.  It touches neither `root` nor `size_`. -/
def clearPool : Tree α β → Pool → Pool
  | Tree.nil, pl => pl
  | Tree.node _ l _ _ r, pl => ((clearPool l pl) |> clearPool r).recycle

/-- The effect of `clear(root)` on the map object: only the pool changes. -/
def clearMap (s : PMap α β) : PMap α β :=
  { root := s.root, size_ := s.size_, pool := clearPool s.root s.pool }

/-- A public mutating operation of the map. -/
inductive Op (α : Type) where
  | upsert (k : α)
  | erase (k : α)
deriving DecidableEq, Repr

/-- Apply one operation. -/
def applyOp [Inhabited β] (s : PMap α β) : Op α → Option (PMap α β)
  | Op.upsert k => some (upsertMap k s)
  | Op.erase k => (eraseMap k s).map Prod.fst

/-- Apply a sequence of operations, propagating the error branch. -/
def applyOps [Inhabited β] : List (Op α) → PMap α β → Option (PMap α β)
  | [], s => some s
  | o :: os, s =>
    match applyOp s o with
    | none => none
    | some s2 => applyOps os s2

/-- Run a sequence of operations from the empty map (pool capacity `cap`). -/
def run [Inhabited β] (ops : List (Op α)) (cap : Nat) : Option (PMap α β) :=
  applyOps ops (emptyMap cap)

/-! ## Executable validity checkers

Used in the statements of the claims; related below to the inductive
invariants used in the proofs. -/

/-- Black-height check: `some n` when every root-to-null path through the tree
passes the same number `n` of BLACK nodes, `none` otherwise. -/
def bh? : Tree α β → Option Nat
  | Tree.nil => some 0
  | Tree.node c l _ _ r =>
    match bh? l, bh? r with
    | some m, some n =>
      if m = n then some (m + (if c = BLACK then 1 else 0)) else none
    | _, _ => none

/-- Red condition: no RED node has a RED child, i.e. every RED node that has a
parent has a BLACK parent. -/
def redOkB : Tree α β → Bool
  | Tree.nil => true
  | Tree.node c l _ _ r =>
    redOkB l && redOkB r && (c = BLACK || (!isRed l && !isRed r))

/-- Strictly-increasing check for a key list. -/
def sortedB : List α → Bool
  | [] => true
  | [_] => true
  | a :: b :: l => (a < b) && sortedB (b :: l)

/-! ## In-order decomposition along a path -/

/-- The entries in-order to the left of the hole of a path. -/
def beforeP : Path α β → List (α × β)
  | [] => []
  | Frame.left _ _ _ _ :: p => beforeP p
  | Frame.right _ k v sib :: p => beforeP p ++ inorder sib ++ [(k, v)]

/-- The entries in-order to the right of the hole of a path. -/
def afterP : Path α β → List (α × β)
  | [] => []
  | Frame.left _ k v sib :: p => (k, v) :: inorder sib ++ afterP p
  | Frame.right _ _ _ _ :: p => afterP p

theorem inorder_plug (p : Path α β) (t : Tree α β) :
    inorder (plug p t) = beforeP p ++ inorder t ++ afterP p := by
  induction p generalizing t with
  | nil => simp [plug, beforeP, afterP]
  | cons f p ih =>
    cases f with
    | left c k v sib => simp [plug, beforeP, afterP, ih, inorder]
    | right c k v sib => simp [plug, beforeP, afterP, ih, inorder]

theorem beforeP_append (p q : Path α β) :
    beforeP (p ++ q) = beforeP q ++ beforeP p := by
  induction p with
  | nil => simp [beforeP]
  | cons f p ih => cases f <;> simp [beforeP, ih]

theorem afterP_append (p q : Path α β) :
    afterP (p ++ q) = afterP p ++ afterP q := by
  induction p with
  | nil => simp [afterP]
  | cons f p ih => cases f <;> simp [afterP, ih]

theorem inorder_setBlack (t : Tree α β) : inorder (setBlack t) = inorder t := by
  cases t <;> simp [setBlack, inorder]

/-! ## The red-black balance invariant -/

/-- `Balanced t c n`: `t` is a valid red-black subtree with root color `c` and
black-height `n` (RED nodes have BLACK children, all paths to null carry `n`
BLACK nodes). -/
inductive Balanced : Tree α β → Color → Nat → Prop where
  | nil : Balanced Tree.nil BLACK 0
  | red {l r : Tree α β} {k : α} {v : β} {n : Nat} :
      Balanced l BLACK n → Balanced r BLACK n → Balanced (Tree.node RED l k v r) RED n
  | black {l r : Tree α β} {k : α} {v : β} {c₁ c₂ : Color} {n : Nat} :
      Balanced l c₁ n → Balanced r c₂ n → Balanced (Tree.node BLACK l k v r) BLACK (n + 1)

/-- `PathBal p c₀ n₀ c n`: the path is the spine of a `(c₀, n₀)`-balanced tree
with a `(c, n)` hole at its focus: filling the hole with a `(c, n)`-balanced
subtree rebuilds a `(c₀, n₀)`-balanced tree. -/
inductive PathBal : Path α β → Color → Nat → Color → Nat → Prop where
  | root {c₀ : Color} {n₀ : Nat} : PathBal [] c₀ n₀ c₀ n₀
  | redL {p : Path α β} {sib : Tree α β} {k : α} {v : β} {c₀ : Color} {n₀ n : Nat} :
      PathBal p c₀ n₀ RED n → Balanced sib BLACK n →
      PathBal (Frame.left RED k v sib :: p) c₀ n₀ BLACK n
  | redR {p : Path α β} {sib : Tree α β} {k : α} {v : β} {c₀ : Color} {n₀ n : Nat} :
      PathBal p c₀ n₀ RED n → Balanced sib BLACK n →
      PathBal (Frame.right RED k v sib :: p) c₀ n₀ BLACK n
  | blackL {p : Path α β} {sib : Tree α β} {k : α} {v : β} {c₀ c₁ c₂ : Color} {n₀ n : Nat} :
      PathBal p c₀ n₀ BLACK (n + 1) → Balanced sib c₂ n →
      PathBal (Frame.left BLACK k v sib :: p) c₀ n₀ c₁ n
  | blackR {p : Path α β} {sib : Tree α β} {k : α} {v : β} {c₀ c₁ c₂ : Color} {n₀ n : Nat} :
      PathBal p c₀ n₀ BLACK (n + 1) → Balanced sib c₂ n →
      PathBal (Frame.right BLACK k v sib :: p) c₀ n₀ c₁ n

theorem PathBal.fill {p : Path α β} {t : Tree α β} {c₀ c : Color} {n₀ n : Nat}
    (hp : PathBal p c₀ n₀ c n) (ht : Balanced t c n) : Balanced (plug p t) c₀ n₀ := by
  induction hp generalizing t with
  | root => exact ht
  | redL hp hs ih => exact ih (Balanced.red ht hs)
  | redR hp hs ih => exact ih (Balanced.red hs ht)
  | blackL hp hs ih => exact ih (Balanced.black ht hs)
  | blackR hp hs ih => exact ih (Balanced.black hs ht)

/-- A hole of a BLACK-rooted tree can always be regarded as a BLACK hole. -/
theorem PathBal.toBlackHole {p : Path α β} {c : Color} {n₀ n : Nat}
    (hp : PathBal p BLACK n₀ c n) : PathBal p BLACK n₀ BLACK n := by
  cases hp with
  | root => exact PathBal.root
  | redL hp hs => exact PathBal.redL hp hs
  | redR hp hs => exact PathBal.redR hp hs
  | blackL hp hs => exact PathBal.blackL hp hs
  | blackR hp hs => exact PathBal.blackR hp hs

/-- The hole color under a BLACK head frame is arbitrary. -/
theorem PathBal.anyHoleL {p : Path α β} {sib : Tree α β} {k : α} {v : β}
    {c₀ c c' : Color} {n₀ n : Nat}
    (hp : PathBal (Frame.left BLACK k v sib :: p) c₀ n₀ c n) :
    PathBal (Frame.left BLACK k v sib :: p) c₀ n₀ c' n := by
  cases hp with
  | blackL hp hs => exact PathBal.blackL hp hs

/-- The hole color under a BLACK head frame is arbitrary (right side). -/
theorem PathBal.anyHoleR {p : Path α β} {sib : Tree α β} {k : α} {v : β}
    {c₀ c c' : Color} {n₀ n : Nat}
    (hp : PathBal (Frame.right BLACK k v sib :: p) c₀ n₀ c n) :
    PathBal (Frame.right BLACK k v sib :: p) c₀ n₀ c' n := by
  cases hp with
  | blackR hp hs => exact PathBal.blackR hp hs

theorem Balanced.isRed_iff {t : Tree α β} {c : Color} {n : Nat}
    (h : Balanced t c n) : isRed t = true ↔ c = RED := by
  cases h <;> simp [isRed]

theorem Balanced.black_of_not_red {t : Tree α β} {c : Color} {n : Nat}
    (h : Balanced t c n) (hr : isRed t = false) : c = BLACK := by
  cases h <;> simp_all [isRed]

theorem Balanced.setBlack_bal {t : Tree α β} {c : Color} {n : Nat}
    (h : Balanced t c n) : ∃ m, Balanced (setBlack t) BLACK m := by
  cases h with
  | nil => exact ⟨0, Balanced.nil⟩
  | red hl hr => exact ⟨_, Balanced.black hl hr⟩
  | black hl hr => exact ⟨_, Balanced.black hl hr⟩

theorem Balanced.ne_nil_of_pos {t : Tree α β} {c : Color} {n : Nat}
    (h : Balanced t c (n + 1)) : t ≠ Tree.nil := by
  cases h <;> simp

theorem Balanced.bh (t : Tree α β) (c : Color) (n : Nat)
    (h : Balanced t c n) : bh? t = some n := by
  induction h with
  | nil => rfl
  | red hl hr ihl ihr => simp [bh?, ihl, ihr]
  | black hl hr ihl ihr => simp [bh?, ihl, ihr]

theorem Balanced.not_red {t : Tree α β} {n : Nat}
    (h : Balanced t BLACK n) : isRed t = false := by
  cases h <;> simp [isRed]

theorem Balanced.redOk (t : Tree α β) (c : Color) (n : Nat)
    (h : Balanced t c n) : redOkB t = true := by
  induction h with
  | nil => rfl
  | red hl hr ihl ihr => simp [redOkB, ihl, ihr, hl.not_red, hr.not_red]
  | black hl hr ihl ihr => simp [redOkB, ihl, ihr]

theorem balanced_of_checks (t : Tree α β) (n : Nat)
    (hr : redOkB t = true) (hb : bh? t = some n) :
    ∃ c, Balanced t c n := by
  induction t generalizing n with
  | nil =>
    simp [bh?] at hb
    exact hb ▸ ⟨BLACK, Balanced.nil⟩
  | node c l k v r ihl ihr =>
    simp only [redOkB, Bool.and_eq_true] at hr
    obtain ⟨⟨hrl, hrr⟩, hcol⟩ := hr
    simp only [bh?] at hb
    cases hbl : bh? l with
    | none => rw [hbl] at hb; cases hb
    | some m =>
      cases hbr : bh? r with
      | none => rw [hbl, hbr] at hb; cases hb
      | some m2 =>
        rw [hbl, hbr] at hb
        by_cases hmm : m = m2
        · subst hmm
          obtain ⟨c₁, hl⟩ := ihl m hrl hbl
          obtain ⟨c₂, hr2⟩ := ihr m hrr hbr
          cases c with
          | BLACK =>
            have hn : m + 1 = n := by simpa using hb
            exact ⟨BLACK, hn ▸ Balanced.black hl hr2⟩
          | RED =>
            simp at hcol
            · have hc₁ := hl.black_of_not_red hcol.1
              have hc₂ := hr2.black_of_not_red hcol.2
              subst hc₁; subst hc₂
              have hnm : m = n := by simpa using hb
              exact ⟨RED, hnm ▸ Balanced.red hl hr2⟩
        · simp [if_neg hmm] at hb

/-! ## Descent lemmas -/

theorem keys_node (c : Color) (l : Tree α β) (k : α) (v : β) (r : Tree α β) :
    keys (Tree.node c l k v r) = keys l ++ k :: keys r := by
  simp [keys, inorder]

theorem sorted_node_facts {c : Color} {l : Tree α β} {k : α} {v : β} {r : Tree α β}
    (h : List.Pairwise (· < ·) (keys (Tree.node c l k v r))) :
    List.Pairwise (· < ·) (keys l) ∧ List.Pairwise (· < ·) (keys r) ∧
      (∀ a ∈ keys l, a < k) ∧ (∀ b ∈ keys r, k < b) := by
  rw [keys_node, List.pairwise_append] at h
  obtain ⟨hl, hr, hcross⟩ := h
  rw [List.pairwise_cons] at hr
  exact ⟨hl, hr.2, fun a ha => hcross a ha k (by simp),
    fun b hb => hr.1 b hb⟩

theorem descend_found_plug {key : α} {t : Tree α β} {acc p : Path α β}
    {c : Color} {l : Tree α β} {k : α} {v : β} {r : Tree α β}
    (h : descend key t acc = Descent.found p c l k v r) :
    plug p (Tree.node c l k v r) = plug acc t := by
  induction t generalizing acc with
  | nil => simp [descend] at h
  | node tc tl tk tv tr ihl ihr =>
    rw [descend] at h
    by_cases h1 : key = tk
    · rw [if_pos h1] at h
      cases h; rfl
    · rw [if_neg h1] at h
      by_cases h2 : key < tk
      · rw [if_pos h2] at h
        exact ihl h
      · rw [if_neg h2] at h
        exact ihr h

theorem descend_notFound_plug {key : α} {t : Tree α β} {acc p : Path α β}
    (h : descend key t acc = Descent.notFound p) :
    plug p Tree.nil = plug acc t := by
  induction t generalizing acc with
  | nil => cases h; rfl
  | node tc tl tk tv tr ihl ihr =>
    rw [descend] at h
    by_cases h1 : key = tk
    · rw [if_pos h1] at h; cases h
    · rw [if_neg h1] at h
      by_cases h2 : key < tk
      · rw [if_pos h2] at h
        exact ihl h
      · rw [if_neg h2] at h
        exact ihr h

theorem descend_found_key {key : α} {t : Tree α β} {acc p : Path α β}
    {c : Color} {l : Tree α β} {k : α} {v : β} {r : Tree α β}
    (h : descend key t acc = Descent.found p c l k v r) : k = key := by
  induction t generalizing acc with
  | nil => simp [descend] at h
  | node tc tl tk tv tr ihl ihr =>
    rw [descend] at h
    by_cases h1 : key = tk
    · rw [if_pos h1] at h
      cases h; exact h1.symm
    · rw [if_neg h1] at h
      by_cases h2 : key < tk
      · rw [if_pos h2] at h; exact ihl h
      · rw [if_neg h2] at h; exact ihr h

theorem descend_found_bal {key : α} {t : Tree α β} {acc p : Path α β}
    {c : Color} {l : Tree α β} {k : α} {v : β} {r : Tree α β}
    {c₀ ct : Color} {n₀ nt : Nat}
    (hb : Balanced t ct nt) (hp : PathBal acc c₀ n₀ ct nt)
    (h : descend key t acc = Descent.found p c l k v r) :
    ∃ n, Balanced (Tree.node c l k v r) c n ∧ PathBal p c₀ n₀ c n := by
  induction t generalizing acc ct nt with
  | nil => simp [descend] at h
  | node tc tl tk tv tr ihl ihr =>
    rw [descend] at h
    by_cases h1 : key = tk
    · rw [if_pos h1] at h
      cases h
      cases hb with
      | red hbl hbr => exact ⟨_, Balanced.red hbl hbr, hp⟩
      | black hbl hbr => exact ⟨_, Balanced.black hbl hbr, hp⟩
    · rw [if_neg h1] at h
      by_cases h2 : key < tk
      · rw [if_pos h2] at h
        cases hb with
        | red hbl hbr => exact ihl hbl (PathBal.redL hp hbr) h
        | black hbl hbr => exact ihl hbl (PathBal.blackL hp hbr) h
      · rw [if_neg h2] at h
        cases hb with
        | red hbl hbr => exact ihr hbr (PathBal.redR hp hbl) h
        | black hbl hbr => exact ihr hbr (PathBal.blackR hp hbl) h

theorem descend_notFound_bal {key : α} {t : Tree α β} {acc p : Path α β}
    {c₀ ct : Color} {n₀ nt : Nat}
    (hb : Balanced t ct nt) (hp : PathBal acc c₀ n₀ ct nt)
    (h : descend key t acc = Descent.notFound p) :
    PathBal p c₀ n₀ BLACK 0 := by
  induction t generalizing acc ct nt with
  | nil =>
    cases h
    cases hb
    exact hp
  | node tc tl tk tv tr ihl ihr =>
    rw [descend] at h
    by_cases h1 : key = tk
    · rw [if_pos h1] at h; cases h
    · rw [if_neg h1] at h
      by_cases h2 : key < tk
      · rw [if_pos h2] at h
        cases hb with
        | red hbl hbr => exact ihl hbl (PathBal.redL hp hbr) h
        | black hbl hbr => exact ihl hbl (PathBal.blackL hp hbr) h
      · rw [if_neg h2] at h
        cases hb with
        | red hbl hbr => exact ihr hbr (PathBal.redR hp hbl) h
        | black hbl hbr => exact ihr hbr (PathBal.blackR hp hbl) h

/-- Bounds of the hole: during a descent for `key`, every entry left of the
hole has key below `key` and every entry right of the hole has key above it. -/
def HoleBounds (key : α) (p : Path α β) : Prop :=
  (∀ a ∈ (beforeP p).map Prod.fst, a < key) ∧
    (∀ a ∈ (afterP p).map Prod.fst, key < a)

theorem descend_notFound_bounds {key : α} {t : Tree α β} {acc p : Path α β}
    (hs : List.Pairwise (· < ·) (keys t)) (hacc : HoleBounds key acc)
    (h : descend key t acc = Descent.notFound p) : HoleBounds key p := by
  induction t generalizing acc with
  | nil => cases h; exact hacc
  | node tc tl tk tv tr ihl ihr =>
    obtain ⟨hsl, hsr, hlk, hkr⟩ := sorted_node_facts hs
    rw [descend] at h
    by_cases h1 : key = tk
    · rw [if_pos h1] at h; cases h
    · rw [if_neg h1] at h
      by_cases h2 : key < tk
      · rw [if_pos h2] at h
        refine ihl hsl ⟨?_, ?_⟩ h
        · simpa [beforeP] using hacc.1
        · intro a ha
          simp only [afterP, List.map_cons, List.map_append, List.mem_cons,
            List.mem_append] at ha
          rcases ha with (rfl | ha) | ha
          · exact h2
          · exact lt_trans h2 (hkr a ha)
          · exact hacc.2 a (by simpa using ha)
      · rw [if_neg h2] at h
        have h3 : tk < key := lt_of_le_of_ne (le_of_not_lt h2) (fun e => h1 e.symm)
        refine ihr hsr ⟨?_, ?_⟩ h
        · intro a ha
          simp only [beforeP, List.map_append, List.mem_append, List.map_cons] at ha
          rcases ha with (ha | ha) | ha
          · exact hacc.1 a (by simpa using ha)
          · exact lt_trans (hlk a ha) h3
          · simp at ha
            rcases ha with rfl
            exact h3
        · simpa [afterP] using hacc.2

theorem descend_found_bounds {key : α} {t : Tree α β} {acc p : Path α β}
    {c : Color} {l : Tree α β} {k : α} {v : β} {r : Tree α β}
    (hs : List.Pairwise (· < ·) (keys t)) (hacc : HoleBounds key acc)
    (h : descend key t acc = Descent.found p c l k v r) :
    List.Pairwise (· < ·) (keys (Tree.node c l k v r)) ∧ HoleBounds key p := by
  induction t generalizing acc with
  | nil => simp [descend] at h
  | node tc tl tk tv tr ihl ihr =>
    obtain ⟨hsl, hsr, hlk, hkr⟩ := sorted_node_facts hs
    rw [descend] at h
    by_cases h1 : key = tk
    · rw [if_pos h1] at h
      cases h
      exact ⟨hs, hacc⟩
    · rw [if_neg h1] at h
      by_cases h2 : key < tk
      · rw [if_pos h2] at h
        refine ihl hsl ⟨?_, ?_⟩ h
        · simpa [beforeP] using hacc.1
        · intro a ha
          simp only [afterP, List.map_cons, List.map_append, List.mem_cons,
            List.mem_append] at ha
          rcases ha with (rfl | ha) | ha
          · exact h2
          · exact lt_trans h2 (hkr a ha)
          · exact hacc.2 a (by simpa using ha)
      · rw [if_neg h2] at h
        have h3 : tk < key := lt_of_le_of_ne (le_of_not_lt h2) (fun e => h1 e.symm)
        refine ihr hsr ⟨?_, ?_⟩ h
        · intro a ha
          simp only [beforeP, List.map_append, List.mem_append, List.map_cons] at ha
          rcases ha with (ha | ha) | ha
          · exact hacc.1 a (by simpa using ha)
          · exact lt_trans (hlk a ha) h3
          · simp at ha
            rcases ha with rfl
            exact h3
        · simpa [afterP] using hacc.2

/-- A descent that misses never passes a node holding the key. -/
theorem descend_notFound_not_mem {key : α} {t : Tree α β} {p : Path α β}
    (hs : List.Pairwise (· < ·) (keys t))
    (h : descend key t [] = Descent.notFound p) : key ∉ keys t := by
  have hb := descend_notFound_bounds hs ⟨by simp [beforeP], by simp [afterP]⟩ h
  have hplug := descend_notFound_plug h
  intro hmem
  have : keys t = (beforeP p).map Prod.fst ++ (afterP p).map Prod.fst := by
    have := inorder_plug p (Tree.nil (α := α) (β := β))
    rw [hplug] at this
    simp only [plug] at this
    simp [keys, this, inorder]
  rw [this, List.mem_append] at hmem
  rcases hmem with hmem | hmem
  · exact absurd (hb.1 key hmem) (lt_irrefl key)
  · exact absurd (hb.2 key hmem) (lt_irrefl key)

theorem descend_found_mem {key : α} {t : Tree α β} {p : Path α β}
    {c : Color} {l : Tree α β} {k : α} {v : β} {r : Tree α β}
    (h : descend key t [] = Descent.found p c l k v r) : key ∈ keys t := by
  have hplug := descend_found_plug h
  have hk := descend_found_key h
  subst hk
  have ht : t = plug p (Tree.node c l k v r) := by simpa [plug] using hplug.symm
  rw [ht]
  simp [keys, inorder_plug, inorder]

/-- `contains` is the boolean shadow of the shared descent. -/
theorem contains_eq_descend (key : α) (t : Tree α β) (acc : Path α β) :
    contains key t =
      (match descend key t acc with
        | Descent.found _ _ _ _ _ _ => true
        | Descent.notFound _ => false) := by
  induction t generalizing acc with
  | nil => simp [contains, descend]
  | node tc tl tk tv tr ihl ihr =>
    rw [contains, descend]
    by_cases h1 : key = tk
    · simp [if_pos h1]
    · rw [if_neg h1, if_neg h1]
      by_cases h2 : key < tk
      · rw [if_pos h2, if_pos h2]
        exact ihl _
      · rw [if_neg h2, if_neg h2]
        exact ihr _

theorem contains_iff_mem {key : α} {t : Tree α β}
    (hs : List.Pairwise (· < ·) (keys t)) :
    contains key t = true ↔ key ∈ keys t := by
  rw [contains_eq_descend key t []]
  constructor
  · intro h
    cases hd : descend key t ([] : Path α β) with
    | found p c l k v r => exact descend_found_mem hd
    | notFound p => rw [hd] at h; simp at h
  · intro hmem
    cases hd : descend key t ([] : Path α β) with
    | found p c l k v r => simp [hd]
    | notFound p => exact absurd hmem (descend_notFound_not_mem hs hd)

/-- `find` is determined by the descent: the value at the found node, else the
default. -/
theorem find_eq_descend [Inhabited β] (key : α) (t : Tree α β) (acc : Path α β) :
    find key t =
      (match descend key t acc with
        | Descent.found _ _ _ _ v _ => v
        | Descent.notFound _ => default) := by
  induction t generalizing acc with
  | nil => simp [find, descend]
  | node tc tl tk tv tr ihl ihr =>
    rw [find, descend]
    by_cases h1 : key = tk
    · simp [if_pos h1]
    · rw [if_neg h1, if_neg h1]
      by_cases h2 : key < tk
      · rw [if_pos h2, if_pos h2]
        exact ihl _
      · rw [if_neg h2, if_neg h2]
        exact ihr _

/-! ## Insert fixup preservation -/

theorem fixInsert_inorder (p : Path α β) (z : Tree α β) :
    inorder (fixInsert p z) = beforeP p ++ inorder z ++ afterP p := by
  induction p, z using fixInsert.induct
  all_goals try simp_all [fixInsert, inorder, inorder_plug, beforeP, afterP]
  all_goals
    rename_i hc
    rw [fixInsert.eq_def]
    simp [inorder, inorder_plug, beforeP, afterP, hc]

theorem fixInsert_bal (p : Path α β) (z : Tree α β) :
    ∀ {c : Color} {n n₀ : Nat}, PathBal p BLACK n₀ c n → Balanced z RED n →
    ∃ c₂ n₂, Balanced (fixInsert p z) c₂ n₂ := by
  induction p, z using fixInsert.induct with
  | case1 z =>
    intro c n n₀ hp hz
    exact ⟨RED, n, by simpa [fixInsert] using hz⟩
  | case2 z pk pv psib =>
    intro c n n₀ hp hz
    cases hp with
    | redL hp1 hsib => cases hp1
  | case3 z pk pv psib rest2 gc gk gv ul uk uv ur ih =>
    intro c n n₀ hp hz
    cases hp with
    | redL hp1 hsib =>
      cases hp1 with
      | blackL hp2 hu =>
        cases hu with
        | red hul hur =>
          exact ih hp2 (Balanced.red (Balanced.black hz hsib) (Balanced.black hul hur))
  | case4 z pk pv psib rest2 gc gk gv uncle hnr =>
    intro c n n₀ hp hz
    cases hp with
    | redL hp1 hsib =>
      cases hp1 with
      | blackL hp2 hu =>
        have hu2 : Balanced uncle BLACK n := by
          cases hu with
          | nil => exact Balanced.nil
          | red h1 h2 => exact (hnr _ _ _ _ rfl).elim
          | black h1 h2 => exact Balanced.black h1 h2
        refine ⟨BLACK, n₀, ?_⟩
        simp only [fixInsert, hnr]
        exact PathBal.fill hp2 (Balanced.black hz (Balanced.red hsib hu2))
  | case5 z pk pv psib rest2 gc gk gv ul uk uv ur ih =>
    intro c n n₀ hp hz
    cases hp with
    | redL hp1 hsib =>
      cases hp1 with
      | blackR hp2 hu =>
        cases hu with
        | red hul hur =>
          exact ih hp2 (Balanced.red (Balanced.black hul hur) (Balanced.black hz hsib))
  | case6 pk pv psib rest2 gc gk gv uncle hnr =>
    intro c n n₀ hp hz
    cases hz
  | case7 pk pv psib rest2 gc gk gv uncle hnr zc zl zk zv zr =>
    intro c n n₀ hp hz
    cases hp with
    | redL hp1 hsib =>
      cases hp1 with
      | blackR hp2 hu =>
        have hu2 : Balanced uncle BLACK n := by
          cases hu with
          | nil => exact Balanced.nil
          | red h1 h2 => exact (hnr _ _ _ _ rfl).elim
          | black h1 h2 => exact Balanced.black h1 h2
        cases hz with
        | red hzl hzr =>
          refine ⟨BLACK, n₀, ?_⟩
          simp only [fixInsert, hnr]
          exact PathBal.fill hp2
            (Balanced.black (Balanced.red hu2 hzl) (Balanced.red hzr hsib))
  | case8 rest z pc pk pv psib hc =>
    intro c n n₀ hp hz
    cases hp with
    | redL hp1 hsib => exact absurd rfl hc
    | blackL hp2 hsib =>
      refine ⟨BLACK, n₀, ?_⟩
      rw [fixInsert.eq_def]
      simp only [hc, if_false]
      exact PathBal.fill (PathBal.blackL hp2 hsib) hz
  | case9 z pk pv psib =>
    intro c n n₀ hp hz
    cases hp with
    | redR hp1 hsib => cases hp1
  | case10 z pk pv psib rest2 gc gk gv ul uk uv ur ih =>
    intro c n n₀ hp hz
    cases hp with
    | redR hp1 hsib =>
      cases hp1 with
      | blackR hp2 hu =>
        cases hu with
        | red hul hur =>
          exact ih hp2 (Balanced.red (Balanced.black hul hur) (Balanced.black hsib hz))
  | case11 z pk pv psib rest2 gc gk gv uncle hnr =>
    intro c n n₀ hp hz
    cases hp with
    | redR hp1 hsib =>
      cases hp1 with
      | blackR hp2 hu =>
        have hu2 : Balanced uncle BLACK n := by
          cases hu with
          | nil => exact Balanced.nil
          | red h1 h2 => exact (hnr _ _ _ _ rfl).elim
          | black h1 h2 => exact Balanced.black h1 h2
        refine ⟨BLACK, n₀, ?_⟩
        simp only [fixInsert, hnr]
        exact PathBal.fill hp2 (Balanced.black (Balanced.red hu2 hsib) hz)
  | case12 z pk pv psib rest2 gc gk gv ul uk uv ur ih =>
    intro c n n₀ hp hz
    cases hp with
    | redR hp1 hsib =>
      cases hp1 with
      | blackL hp2 hu =>
        cases hu with
        | red hul hur =>
          exact ih hp2 (Balanced.red (Balanced.black hsib hz) (Balanced.black hul hur))
  | case13 pk pv psib rest2 gc gk gv uncle hnr =>
    intro c n n₀ hp hz
    cases hz
  | case14 pk pv psib rest2 gc gk gv uncle zc zl zk zv zr hnr =>
    intro c n n₀ hp hz
    cases hp with
    | redR hp1 hsib =>
      cases hp1 with
      | blackL hp2 hu =>
        have hu2 : Balanced uncle BLACK n := by
          cases hu with
          | nil => exact Balanced.nil
          | red h1 h2 => exact (hnr _ _ _ _ rfl).elim
          | black h1 h2 => exact Balanced.black h1 h2
        cases hz with
        | red hzl hzr =>
          refine ⟨BLACK, n₀, ?_⟩
          simp only [fixInsert, hnr]
          exact PathBal.fill hp2
            (Balanced.black (Balanced.red hsib hzl) (Balanced.red hzr hu2))
  | case15 rest z pc pk pv psib hc =>
    intro c n n₀ hp hz
    cases hp with
    | redR hp1 hsib => exact absurd rfl hc
    | blackR hp2 hsib =>
      refine ⟨BLACK, n₀, ?_⟩
      rw [fixInsert.eq_def]
      simp only [hc, if_false]
      exact PathBal.fill (PathBal.blackR hp2 hsib) hz

/-- Inserting into a balanced tree yields a balanced tree with BLACK root. -/
theorem insertTree_balanced [Inhabited β] {key : α} {t : Tree α β} {n : Nat}
    (hb : Balanced t BLACK n) :
    ∃ m, Balanced (insertTree key t) BLACK m := by
  rw [insertTree]
  cases hd : descend key t ([] : Path α β) with
  | found p c l k v r => exact ⟨n, hb⟩
  | notFound p =>
    have hp : PathBal p BLACK n BLACK 0 := descend_notFound_bal hb PathBal.root hd
    have hz : Balanced (Tree.node RED (Tree.nil (α := α) (β := β)) key default Tree.nil) RED 0 :=
      Balanced.red Balanced.nil Balanced.nil
    obtain ⟨c₂, n₂, hfix⟩ := fixInsert_bal p _ hp hz
    exact hfix.setBlack_bal

/-! ## Erase fixup preservation -/

/-- The focus of the erase-fixup loop: a subtree that is balanced except that
its root may be RED with RED children (the transient state Case 2 creates when
the parent was RED; the loop then exits and blackens it). -/
inductive AlmostRB : Tree α β → Nat → Prop where
  | ok {t : Tree α β} {c : Color} {n : Nat} : Balanced t c n → AlmostRB t n
  | redTop {l r : Tree α β} {k : α} {v : β} {c₁ c₂ : Color} {n : Nat} :
      Balanced l c₁ n → Balanced r c₂ n → AlmostRB (Tree.node RED l k v r) n

theorem AlmostRB.black_focus {x : Tree α β} {n : Nat}
    (h : AlmostRB x n) (hr : isRed x = false) : Balanced x BLACK n := by
  cases h with
  | ok hb => exact (hb.black_of_not_red hr) ▸ hb
  | redTop hl hr2 => simp [isRed] at hr

theorem AlmostRB.setBlack_red {x : Tree α β} {n : Nat}
    (h : AlmostRB x n) (hr : isRed x = true) : Balanced (setBlack x) BLACK (n + 1) := by
  cases h with
  | ok hb =>
    have := hb.isRed_iff.mp hr
    subst this
    cases hb with
    | red hl hr2 => exact Balanced.black hl hr2
  | redTop hl hr2 => exact Balanced.black hl hr2

theorem AlmostRB.setBlack_any {x : Tree α β} {n : Nat}
    (h : AlmostRB x n) : ∃ m, Balanced (setBlack x) BLACK m := by
  cases h with
  | ok hb => exact hb.setBlack_bal
  | redTop hl hr2 => exact ⟨_, Balanced.black hl hr2⟩

theorem Balanced.setBlack_of_red {t : Tree α β} {n : Nat}
    (h : Balanced t RED n) : Balanced (setBlack t) BLACK (n + 1) := by
  cases h with
  | red hl hr => exact Balanced.black hl hr

theorem red_of_not_both {A B : Tree α β}
    (hnot : ¬(!isRed A && !isRed B) = true) (hB : (!isRed B) = true) :
    isRed A = true := by
  by_contra hA
  rw [Bool.not_eq_true] at hA
  exact hnot (by simp [hA, hB])

theorem fixErase_inorder (p : Path α β) (x : Tree α β) :
    ∀ {t2 : Tree α β}, fixErase p x = some t2 →
      inorder t2 = beforeP p ++ inorder x ++ afterP p := by
  induction p, x using fixErase.induct with
  | _ =>
    intro t2 heq
    rw [fixErase.eq_def] at heq
    simp_all [inorder_plug, inorder_setBlack, inorder, beforeP, afterP]
    all_goals subst heq
    all_goals simp [inorder_plug, inorder_setBlack, inorder, beforeP, afterP]

/-- The erase-fixup loop terminates without touching a null sibling and
restores the red-black invariant: from a context expecting black-height
`n + 1` and a focus that is one BLACK short (`AlmostRB x n`), it returns a
balanced BLACK-rooted tree. -/
theorem fixErase_ok (p : Path α β) (x : Tree α β) :
    ∀ {c : Color} {n n₀ : Nat}, PathBal p BLACK n₀ c (n + 1) → AlmostRB x n →
    ∃ t2, fixErase p x = some t2 ∧ ∃ m, Balanced t2 BLACK m := by
  induction p, x using fixErase.induct with
  | case1 x =>
    intro c n n₀ hp hax
    exact ⟨setBlack x, by rw [fixErase.eq_def], hax.setBlack_any⟩
  | case2 x f rest hxr =>
    intro c n n₀ hp hax
    refine ⟨plug (f :: rest) (setBlack x), ?_, ?_⟩
    · rw [fixErase.eq_def]
      simp [hxr]
    · exact ⟨n₀, PathBal.fill hp.toBlackHole (hax.setBlack_red hxr)⟩
  | case3 x rest hxnr pc pk pv wk wv wr =>
    intro c n n₀ hp hax
    cases hp with
    | redL hp1 hw => cases hw
    | blackL hp2 hw =>
      cases hw with
      | red hwl hwr => cases hwl
  | case4 x rest hxnr pc pk pv wk wv wr wc2 wl2 wk2 wv2 wr2 hboth ih =>
    intro c n n₀ hp hax
    have hxf : isRed x = false := by simpa using hxnr
    have hxb : Balanced x BLACK n := hax.black_focus hxf
    cases hp with
    | redL hp1 hw => cases hw
    | blackL hp2 hw =>
      cases hw with
      | red hwl hwr =>
        cases hwl with
        | black hwl2 hwr2 =>
          simp only [Bool.and_eq_true, Bool.not_eq_true'] at hboth
          have hA : Balanced wl2 BLACK n := (hwl2.black_of_not_red hboth.1) ▸ hwl2
          have hB : Balanced wr2 BLACK n := (hwr2.black_of_not_red hboth.2) ▸ hwr2
          obtain ⟨t2, heq, hbal⟩ := ih (c := RED)
            (PathBal.blackL hp2 hwr)
            (AlmostRB.redTop hxb (Balanced.red hA hB))
          refine ⟨t2, ?_, hbal⟩
          rw [fixErase.eq_def]
          simpa [hxf, hboth] using heq
  | case5 x rest hxnr pc pk pv wk wv wr wc2 wk2 wv2 wr2 hwr2 hnot =>
    intro c n n₀ hp hax
    simp_all [isRed]
  | case6 x rest hxnr pc pk pv wk wv wr wc2 wk2 wv2 wr2 hwr2 wc3 wl3 wk3 wv3 wr3 hnot =>
    intro c n n₀ hp hax
    have hxf : isRed x = false := by simpa using hxnr
    have hxb : Balanced x BLACK n := hax.black_focus hxf
    have hwr2f : isRed wr2 = false := by simpa using hwr2
    have hared : isRed (Tree.node wc3 wl3 wk3 wv3 wr3) = true := red_of_not_both hnot hwr2
    cases hp with
    | redL hp1 hw => cases hw
    | blackL hp2 hw =>
      cases hw with
      | red hwl hwr =>
        cases hwl with
        | black hwl2 hwr2b =>
          have hB : Balanced wr2 BLACK n := (hwr2b.black_of_not_red hwr2f) ▸ hwr2b
          cases hwl2 with
          | black h1 h2 => simp [isRed] at hared
          | red hwl3 hwr3 =>
            refine ⟨setBlack (plug (Frame.left BLACK wk wv wr :: rest)
              (Tree.node RED (Tree.node BLACK x pk pv wl3) wk3 wv3
                (Tree.node BLACK wr3 wk2 wv2 wr2))), ?_, ?_⟩
            · rw [fixErase.eq_def]
              simp [hxf, hwr2, hared]
            · exact (PathBal.fill (PathBal.blackL hp2 hwr)
                (Balanced.red (Balanced.black hxb hwl3)
                  (Balanced.black hwr3 hB))).setBlack_bal
  | case7 x rest hxnr pc pk pv wk wv wr wc2 wl2 wk2 wv2 wr2 hnotboth hwr2red =>
    intro c n n₀ hp hax
    have hxf : isRed x = false := by simpa using hxnr
    have hxb : Balanced x BLACK n := hax.black_focus hxf
    have hwr2red2 : isRed wr2 = true := by simpa using hwr2red
    cases hp with
    | redL hp1 hw => cases hw
    | blackL hp2 hw =>
      cases hw with
      | red hwl hwr =>
        cases hwl with
        | black hwl2 hwr2b =>
          have hcB := hwr2b.isRed_iff.mp hwr2red2
          rw [hcB] at hwr2b
          refine ⟨setBlack (plug (Frame.left BLACK wk wv wr :: rest)
            (Tree.node RED (Tree.node BLACK x pk pv wl2) wk2 wv2 (setBlack wr2))), ?_, ?_⟩
          · rw [fixErase.eq_def]
            simp [hxf, hnotboth, hwr2red]
          · exact (PathBal.fill (PathBal.blackL hp2 hwr)
              (Balanced.red (Balanced.black hxb hwl2)
                hwr2b.setBlack_of_red)).setBlack_bal
  | case8 x rest hxnr pc pk pv =>
    intro c n n₀ hp hax
    cases hp with
    | redL hp1 hw => cases hw
    | blackL hp2 hw => cases hw
  | case9 x rest hxnr pc pk pv wc wl wk wv wr hnr hboth ih =>
    intro c n n₀ hp hax
    have hxf : isRed x = false := by simpa using hxnr
    have hxb : Balanced x BLACK n := hax.black_focus hxf
    have hwc : wc = BLACK := by
      cases wc
      · exact (hnr rfl).elim
      · rfl
    subst hwc
    simp only [Bool.and_eq_true, Bool.not_eq_true'] at hboth
    cases hp with
    | redL hp1 hw =>
      cases hw with
      | black hwl hwr =>
        have hA : Balanced wl BLACK n := (hwl.black_of_not_red hboth.1) ▸ hwl
        have hB : Balanced wr BLACK n := (hwr.black_of_not_red hboth.2) ▸ hwr
        obtain ⟨t2, heq, hbal⟩ := ih hp1 (AlmostRB.redTop hxb (Balanced.red hA hB))
        refine ⟨t2, ?_, hbal⟩
        rw [fixErase.eq_def]
        simpa [hxf, hboth] using heq
    | blackL hp2 hw =>
      cases hw with
      | black hwl hwr =>
        have hA : Balanced wl BLACK n := (hwl.black_of_not_red hboth.1) ▸ hwl
        have hB : Balanced wr BLACK n := (hwr.black_of_not_red hboth.2) ▸ hwr
        obtain ⟨t2, heq, hbal⟩ := ih hp2
          (AlmostRB.ok (Balanced.black hxb (Balanced.red hA hB)))
        refine ⟨t2, ?_, hbal⟩
        rw [fixErase.eq_def]
        simpa [hxf, hboth] using heq
  | case10 x rest hxnr pc pk pv wc wk wv wr hnr hwr hnot =>
    intro c n n₀ hp hax
    simp_all [isRed]
  | case11 x rest hxnr pc pk pv wc wk wv wr hnr hwrnr wlc wll wlk wlv wlr hnot =>
    intro c n n₀ hp hax
    have hxf : isRed x = false := by simpa using hxnr
    have hxb : Balanced x BLACK n := hax.black_focus hxf
    have hwc : wc = BLACK := by
      cases wc
      · exact (hnr rfl).elim
      · rfl
    subst hwc
    have hwrf : isRed wr = false := by simpa using hwrnr
    have hwlred : isRed (Tree.node wlc wll wlk wlv wlr) = true :=
      red_of_not_both hnot hwrnr
    cases hp with
    | redL hp1 hw =>
      cases hw with
      | black hwl hwr2 =>
        have hBwr : Balanced wr BLACK n := (hwr2.black_of_not_red hwrf) ▸ hwr2
        cases hwl with
        | black h1 h2 => simp [isRed] at hwlred
        | red hwll hwlr =>
          refine ⟨setBlack (plug rest (Tree.node RED (Tree.node BLACK x pk pv wll)
            wlk wlv (Tree.node BLACK wlr wk wv wr))), ?_, ?_⟩
          · rw [fixErase.eq_def]
            simp [hxf, hwrnr, hwlred]
          · exact (PathBal.fill hp1 (Balanced.red (Balanced.black hxb hwll)
              (Balanced.black hwlr hBwr))).setBlack_bal
    | blackL hp2 hw =>
      cases hw with
      | black hwl hwr2 =>
        have hBwr : Balanced wr BLACK n := (hwr2.black_of_not_red hwrf) ▸ hwr2
        cases hwl with
        | black h1 h2 => simp [isRed] at hwlred
        | red hwll hwlr =>
          refine ⟨setBlack (plug rest (Tree.node BLACK (Tree.node BLACK x pk pv wll)
            wlk wlv (Tree.node BLACK wlr wk wv wr))), ?_, ?_⟩
          · rw [fixErase.eq_def]
            simp [hxf, hwrnr, hwlred]
          · exact (PathBal.fill hp2 (Balanced.black (Balanced.black hxb hwll)
              (Balanced.black hwlr hBwr))).setBlack_bal
  | case12 x rest hxnr pc pk pv wc wl wk wv wr hnr hnotboth hwrred =>
    intro c n n₀ hp hax
    have hxf : isRed x = false := by simpa using hxnr
    have hxb : Balanced x BLACK n := hax.black_focus hxf
    have hwc : wc = BLACK := by
      cases wc
      · exact (hnr rfl).elim
      · rfl
    subst hwc
    have hwrred2 : isRed wr = true := by simpa using hwrred
    cases hp with
    | redL hp1 hw =>
      cases hw with
      | black hwl hwr2 =>
        have hcB := hwr2.isRed_iff.mp hwrred2
        rw [hcB] at hwr2
        refine ⟨setBlack (plug rest (Tree.node RED (Tree.node BLACK x pk pv wl)
          wk wv (setBlack wr))), ?_, ?_⟩
        · rw [fixErase.eq_def]
          simp [hxf, hnotboth, hwrred]
        · exact (PathBal.fill hp1 (Balanced.red (Balanced.black hxb hwl)
            hwr2.setBlack_of_red)).setBlack_bal
    | blackL hp2 hw =>
      cases hw with
      | black hwl hwr2 =>
        have hcB := hwr2.isRed_iff.mp hwrred2
        rw [hcB] at hwr2
        refine ⟨setBlack (plug rest (Tree.node BLACK (Tree.node BLACK x pk pv wl)
          wk wv (setBlack wr))), ?_, ?_⟩
        · rw [fixErase.eq_def]
          simp [hxf, hnotboth, hwrred]
        · exact (PathBal.fill hp2 (Balanced.black (Balanced.black hxb hwl)
            hwr2.setBlack_of_red)).setBlack_bal
  | case13 x rest hxnr pc pk pv wl wk wv =>
    intro c n n₀ hp hax
    cases hp with
    | redR hp1 hw => cases hw
    | blackR hp2 hw =>
      cases hw with
      | red hwl hwr => cases hwr
  | case14 x rest hxnr pc pk pv wl wk wv wc2 wl2 wk2 wv2 wr2 hboth ih =>
    intro c n n₀ hp hax
    have hxf : isRed x = false := by simpa using hxnr
    have hxb : Balanced x BLACK n := hax.black_focus hxf
    cases hp with
    | redR hp1 hw => cases hw
    | blackR hp2 hw =>
      cases hw with
      | red hwl hwr =>
        cases hwr with
        | black hwl2 hwr2 =>
          simp only [Bool.and_eq_true, Bool.not_eq_true'] at hboth
          have hA : Balanced wl2 BLACK n := (hwl2.black_of_not_red hboth.2) ▸ hwl2
          have hB : Balanced wr2 BLACK n := (hwr2.black_of_not_red hboth.1) ▸ hwr2
          obtain ⟨t2, heq, hbal⟩ := ih (c := RED)
            (PathBal.blackR hp2 hwl)
            (AlmostRB.redTop (Balanced.red hA hB) hxb)
          refine ⟨t2, ?_, hbal⟩
          rw [fixErase.eq_def]
          simpa [hxf, hboth] using heq
  | case15 x rest hxnr pc pk pv wl wk wv wc2 wl2 wk2 wv2 hwl2 hnot =>
    intro c n n₀ hp hax
    simp_all [isRed]
  | case16 x rest hxnr pc pk pv wl wk wv wc2 wl2 wk2 wv2 hwl2nr wc3 wl3 wk3 wv3 wr3 hnot =>
    intro c n n₀ hp hax
    have hxf : isRed x = false := by simpa using hxnr
    have hxb : Balanced x BLACK n := hax.black_focus hxf
    have hwl2f : isRed wl2 = false := by simpa using hwl2nr
    have hared : isRed (Tree.node wc3 wl3 wk3 wv3 wr3) = true := red_of_not_both hnot hwl2nr
    cases hp with
    | redR hp1 hw => cases hw
    | blackR hp2 hw =>
      cases hw with
      | red hwl hwr =>
        cases hwr with
        | black hwl2b hwr2b =>
          have hA : Balanced wl2 BLACK n := (hwl2b.black_of_not_red hwl2f) ▸ hwl2b
          cases hwr2b with
          | black h1 h2 => simp [isRed] at hared
          | red hwl3 hwr3 =>
            refine ⟨setBlack (plug (Frame.right BLACK wk wv wl :: rest)
              (Tree.node RED (Tree.node BLACK wl2 wk2 wv2 wl3) wk3 wv3
                (Tree.node BLACK wr3 pk pv x))), ?_, ?_⟩
            · rw [fixErase.eq_def]
              simp [hxf, hwl2nr, hared]
            · exact (PathBal.fill (PathBal.blackR hp2 hwl)
                (Balanced.red (Balanced.black hA hwl3)
                  (Balanced.black hwr3 hxb))).setBlack_bal
  | case17 x rest hxnr pc pk pv wl wk wv wc2 wl2 wk2 wv2 wr2 hnotboth hwl2red =>
    intro c n n₀ hp hax
    have hxf : isRed x = false := by simpa using hxnr
    have hxb : Balanced x BLACK n := hax.black_focus hxf
    have hwl2red2 : isRed wl2 = true := by simpa using hwl2red
    cases hp with
    | redR hp1 hw => cases hw
    | blackR hp2 hw =>
      cases hw with
      | red hwl hwr =>
        cases hwr with
        | black hwl2b hwr2b =>
          have hcA := hwl2b.isRed_iff.mp hwl2red2
          rw [hcA] at hwl2b
          refine ⟨setBlack (plug (Frame.right BLACK wk wv wl :: rest)
            (Tree.node RED (setBlack wl2) wk2 wv2 (Tree.node BLACK wr2 pk pv x))), ?_, ?_⟩
          · rw [fixErase.eq_def]
            simp [hxf, hnotboth, hwl2red]
          · exact (PathBal.fill (PathBal.blackR hp2 hwl)
              (Balanced.red hwl2b.setBlack_of_red
                (Balanced.black hwr2b hxb))).setBlack_bal
  | case18 x rest hxnr pc pk pv =>
    intro c n n₀ hp hax
    cases hp with
    | redR hp1 hw => cases hw
    | blackR hp2 hw => cases hw
  | case19 x rest hxnr pc pk pv wc wl wk wv wr hnr hboth ih =>
    intro c n n₀ hp hax
    have hxf : isRed x = false := by simpa using hxnr
    have hxb : Balanced x BLACK n := hax.black_focus hxf
    have hwc : wc = BLACK := by
      cases wc
      · exact (hnr rfl).elim
      · rfl
    subst hwc
    simp only [Bool.and_eq_true, Bool.not_eq_true'] at hboth
    cases hp with
    | redR hp1 hw =>
      cases hw with
      | black hwl hwr =>
        have hA : Balanced wl BLACK n := (hwl.black_of_not_red hboth.2) ▸ hwl
        have hB : Balanced wr BLACK n := (hwr.black_of_not_red hboth.1) ▸ hwr
        obtain ⟨t2, heq, hbal⟩ := ih hp1 (AlmostRB.redTop (Balanced.red hA hB) hxb)
        refine ⟨t2, ?_, hbal⟩
        rw [fixErase.eq_def]
        simpa [hxf, hboth] using heq
    | blackR hp2 hw =>
      cases hw with
      | black hwl hwr =>
        have hA : Balanced wl BLACK n := (hwl.black_of_not_red hboth.2) ▸ hwl
        have hB : Balanced wr BLACK n := (hwr.black_of_not_red hboth.1) ▸ hwr
        obtain ⟨t2, heq, hbal⟩ := ih hp2
          (AlmostRB.ok (Balanced.black (Balanced.red hA hB) hxb))
        refine ⟨t2, ?_, hbal⟩
        rw [fixErase.eq_def]
        simpa [hxf, hboth] using heq
  | case20 x rest hxnr pc pk pv wc wl wk wv hnr hwl hnot =>
    intro c n n₀ hp hax
    simp_all [isRed]
  | case21 x rest hxnr pc pk pv wc wl wk wv hnr hwlnr wrc wrl wrk wrv wrr hnot =>
    intro c n n₀ hp hax
    have hxf : isRed x = false := by simpa using hxnr
    have hxb : Balanced x BLACK n := hax.black_focus hxf
    have hwc : wc = BLACK := by
      cases wc
      · exact (hnr rfl).elim
      · rfl
    subst hwc
    have hwlf : isRed wl = false := by simpa using hwlnr
    have hwrred : isRed (Tree.node wrc wrl wrk wrv wrr) = true :=
      red_of_not_both hnot hwlnr
    cases hp with
    | redR hp1 hw =>
      cases hw with
      | black hwl2 hwr2 =>
        cases hwr2 with
        | black h1 h2 => simp [isRed] at hwrred
        | red hwrl hwrr =>
          refine ⟨setBlack (plug rest (Tree.node RED (Tree.node BLACK wl wk wv wrl)
            wrk wrv (Tree.node BLACK wrr pk pv x))), ?_, ?_⟩
          · rw [fixErase.eq_def]
            simp [hxf, hwlnr, hwrred]
          · exact (PathBal.fill hp1 (Balanced.red (Balanced.black hwl2 hwrl)
              (Balanced.black hwrr hxb))).setBlack_bal
    | blackR hp2 hw =>
      cases hw with
      | black hwl2 hwr2 =>
        cases hwr2 with
        | black h1 h2 => simp [isRed] at hwrred
        | red hwrl hwrr =>
          refine ⟨setBlack (plug rest (Tree.node BLACK (Tree.node BLACK wl wk wv wrl)
            wrk wrv (Tree.node BLACK wrr pk pv x))), ?_, ?_⟩
          · rw [fixErase.eq_def]
            simp [hxf, hwlnr, hwrred]
          · exact (PathBal.fill hp2 (Balanced.black (Balanced.black hwl2 hwrl)
              (Balanced.black hwrr hxb))).setBlack_bal
  | case22 x rest hxnr pc pk pv wc wl wk wv wr hnr hnotboth hwlred =>
    intro c n n₀ hp hax
    have hxf : isRed x = false := by simpa using hxnr
    have hxb : Balanced x BLACK n := hax.black_focus hxf
    have hwc : wc = BLACK := by
      cases wc
      · exact (hnr rfl).elim
      · rfl
    subst hwc
    have hwlred2 : isRed wl = true := by simpa using hwlred
    cases hp with
    | redR hp1 hw =>
      cases hw with
      | black hwl2 hwr2 =>
        have hcA := hwl2.isRed_iff.mp hwlred2
        rw [hcA] at hwl2
        refine ⟨setBlack (plug rest (Tree.node RED (setBlack wl)
          wk wv (Tree.node BLACK wr pk pv x))), ?_, ?_⟩
        · rw [fixErase.eq_def]
          simp [hxf, hnotboth, hwlred]
        · exact (PathBal.fill hp1 (Balanced.red hwl2.setBlack_of_red
            (Balanced.black hwr2 hxb))).setBlack_bal
    | blackR hp2 hw =>
      cases hw with
      | black hwl2 hwr2 =>
        have hcA := hwl2.isRed_iff.mp hwlred2
        rw [hcA] at hwl2
        refine ⟨setBlack (plug rest (Tree.node BLACK (setBlack wl)
          wk wv (Tree.node BLACK wr pk pv x))), ?_, ?_⟩
        · rw [fixErase.eq_def]
          simp [hxf, hnotboth, hwlred]
        · exact (PathBal.fill hp2 (Balanced.black hwl2.setBlack_of_red
            (Balanced.black hwr2 hxb))).setBlack_bal

/-! ## Successor splice (`minimum`) lemmas -/

theorem minSplit_acc (l : Tree α β) :
    ∀ (c : Color) (k : α) (v : β) (r : Tree α β) (acc : Path α β),
      minSplit c l k v r acc =
        ((minSplit c l k v r []).1 ++ acc, (minSplit c l k v r []).2) := by
  induction l with
  | nil => intro c k v r acc; simp [minSplit]
  | node lc ll lk lv lr ihl ihr =>
    intro c k v r acc
    rw [minSplit]
    rw [ihl lc lk lv lr (Frame.left c k v r :: acc)]
    conv_rhs => rw [minSplit, ihl lc lk lv lr [Frame.left c k v r]]
    simp

theorem minSplit_plug {l : Tree α β} :
    ∀ {c : Color} {k : α} {v : β} {r : Tree α β} {acc q : Path α β}
      {yc : Color} {yk : α} {yv : β} {yr : Tree α β},
      minSplit c l k v r acc = (q, yc, yk, yv, yr) →
      plug q (Tree.node yc Tree.nil yk yv yr) = plug acc (Tree.node c l k v r) := by
  induction l with
  | nil =>
    intro c k v r acc q yc yk yv yr h
    rw [minSplit] at h
    cases h
    rfl
  | node lc ll lk lv lr ihl ihr =>
    intro c k v r acc q yc yk yv yr h
    rw [minSplit] at h
    exact ihl h

theorem minSplit_before {l : Tree α β} :
    ∀ {c : Color} {k : α} {v : β} {r : Tree α β} {acc q : Path α β}
      {yc : Color} {yk : α} {yv : β} {yr : Tree α β},
      minSplit c l k v r acc = (q, yc, yk, yv, yr) → beforeP q = beforeP acc := by
  induction l with
  | nil =>
    intro c k v r acc q yc yk yv yr h
    rw [minSplit] at h
    cases h
    rfl
  | node lc ll lk lv lr ihl ihr =>
    intro c k v r acc q yc yk yv yr h
    rw [minSplit] at h
    rw [ihl h]
    rfl

theorem minSplit_bal {l : Tree α β} :
    ∀ {c : Color} {k : α} {v : β} {r : Tree α β} {acc q : Path α β}
      {yc : Color} {yk : α} {yv : β} {yr : Tree α β} {ct c₀ : Color} {nt n₀ : Nat},
      Balanced (Tree.node c l k v r) ct nt → PathBal acc c₀ n₀ ct nt →
      minSplit c l k v r acc = (q, yc, yk, yv, yr) →
      ∃ ny, Balanced (Tree.node yc Tree.nil yk yv yr) yc ny ∧ PathBal q c₀ n₀ yc ny := by
  induction l with
  | nil =>
    intro c k v r acc q yc yk yv yr ct c₀ nt n₀ hb hp h
    rw [minSplit] at h
    cases h
    cases hb with
    | red hbl hbr => exact ⟨_, Balanced.red hbl hbr, hp⟩
    | black hbl hbr => exact ⟨_, Balanced.black hbl hbr, hp⟩
  | node lc ll lk lv lr ihl ihr =>
    intro c k v r acc q yc yk yv yr ct c₀ nt n₀ hb hp h
    rw [minSplit] at h
    cases hb with
    | red hbl hbr => exact ihl hbl (PathBal.redL hp hbr) h
    | black hbl hbr => exact ihl hbl (PathBal.blackL hp hbr) h

/-! ## Erase: structural correctness -/

theorem eraseNode_ok {p : Path α β} {zc : Color} {zl : Tree α β} {zk : α} {zv : β}
    {zr : Tree α β} {n₀ nz : Nat}
    (hp : PathBal p BLACK n₀ zc nz)
    (hb : Balanced (Tree.node zc zl zk zv zr) zc nz) :
    ∃ t2, eraseNode p zc zl zk zv zr = some t2 ∧ (∃ m, Balanced t2 BLACK m) ∧
      inorder t2 = beforeP p ++ inorder zl ++ inorder zr ++ afterP p := by
  cases zl with
  | nil =>
    cases hb with
    | red hbl hbr =>
      cases hbl
      refine ⟨plug p zr, by simp [eraseNode], ?_, ?_⟩
      · exact ⟨n₀, PathBal.fill hp.toBlackHole hbr⟩
      · simp [inorder_plug, inorder]
    | black hbl hbr =>
      cases hbl
      obtain ⟨t2, heq, hbal⟩ := fixErase_ok p zr hp (AlmostRB.ok hbr)
      refine ⟨t2, by simp [eraseNode, heq], hbal, ?_⟩
      rw [fixErase_inorder p zr heq]
      simp [inorder]
  | node zlc zll zlk zlv zlr =>
    cases zr with
    | nil =>
      cases hb with
      | red hbl hbr =>
        cases hbr
        cases hbl
      | black hbl hbr =>
        cases hbr
        obtain ⟨t2, heq, hbal⟩ := fixErase_ok p _ hp (AlmostRB.ok hbl)
        refine ⟨t2, by simp [eraseNode, heq], hbal, ?_⟩
        rw [fixErase_inorder p _ heq]
        simp [inorder]
    | node zrc zrl zrk zrv zrr =>
      rcases hms : minSplit zrc zrl zrk zrv zrr [] with ⟨q, yc, yk, yv, yr⟩
      have hplugq : plug q (Tree.node yc Tree.nil yk yv yr) =
          Tree.node zrc zrl zrk zrv zrr := minSplit_plug hms
      have hbq : beforeP q = [] := minSplit_before hms
      have hzrin : inorder (Tree.node zrc zrl zrk zrv zrr) =
          (yk, yv) :: inorder yr ++ afterP q := by
        rw [← hplugq, inorder_plug, hbq]
        simp [inorder]
      cases hb with
      | red hbl hbr =>
        have hms2 : minSplit zrc zrl zrk zrv zrr
            (Frame.right RED yk yv (Tree.node zlc zll zlk zlv zlr) :: p) =
            (q ++ Frame.right RED yk yv (Tree.node zlc zll zlk zlv zlr) :: p,
              yc, yk, yv, yr) := by
          rw [minSplit_acc, hms]
        obtain ⟨ny, hby, hpq⟩ := minSplit_bal hbr (PathBal.redR hp hbl) hms2
        cases hby with
        | red hynil hyr =>
          refine ⟨plug (q ++ Frame.right RED yk yv (Tree.node zlc zll zlk zlv zlr) :: p) yr,
            ?_, ?_, ?_⟩
          · simp [eraseNode, hms]
          · exact ⟨n₀, PathBal.fill hpq.toBlackHole hyr⟩
          · rw [inorder_plug, beforeP_append, afterP_append, hbq, hzrin]
            simp [beforeP, afterP, inorder]
        | black hynil hyr =>
          cases hynil
          obtain ⟨t2, heq, hbal⟩ := fixErase_ok _ yr hpq (AlmostRB.ok hyr)
          refine ⟨t2, by simp [eraseNode, hms, heq], hbal, ?_⟩
          rw [fixErase_inorder _ _ heq, beforeP_append, afterP_append, hbq, hzrin]
          simp [beforeP, afterP, inorder]
      | black hbl hbr =>
        have hms2 : minSplit zrc zrl zrk zrv zrr
            (Frame.right BLACK yk yv (Tree.node zlc zll zlk zlv zlr) :: p) =
            (q ++ Frame.right BLACK yk yv (Tree.node zlc zll zlk zlv zlr) :: p,
              yc, yk, yv, yr) := by
          rw [minSplit_acc, hms]
        obtain ⟨ny, hby, hpq⟩ := minSplit_bal hbr (PathBal.blackR hp hbl) hms2
        cases hby with
        | red hynil hyr =>
          refine ⟨plug (q ++ Frame.right BLACK yk yv (Tree.node zlc zll zlk zlv zlr) :: p) yr,
            ?_, ?_, ?_⟩
          · simp [eraseNode, hms]
          · exact ⟨n₀, PathBal.fill hpq.toBlackHole hyr⟩
          · rw [inorder_plug, beforeP_append, afterP_append, hbq, hzrin]
            simp [beforeP, afterP, inorder]
        | black hynil hyr =>
          cases hynil
          obtain ⟨t2, heq, hbal⟩ := fixErase_ok _ yr hpq (AlmostRB.ok hyr)
          refine ⟨t2, by simp [eraseNode, hms, heq], hbal, ?_⟩
          rw [fixErase_inorder _ _ heq, beforeP_append, afterP_append, hbq, hzrin]
          simp [beforeP, afterP, inorder]

theorem eraseTree_found {key : α} {t : Tree α β} {n₀ : Nat} {p : Path α β}
    {c : Color} {l : Tree α β} {k : α} {v : β} {r : Tree α β}
    (hb : Balanced t BLACK n₀)
    (hd : descend key t [] = Descent.found p c l k v r) :
    ∃ t2, eraseTree key t = EraseResult.removed t2 ∧ (∃ m, Balanced t2 BLACK m) ∧
      inorder t2 = beforeP p ++ inorder l ++ inorder r ++ afterP p := by
  obtain ⟨nz, hbz, hpz⟩ := descend_found_bal hb PathBal.root hd
  obtain ⟨t2, heq, hbal, hino⟩ := eraseNode_ok hpz hbz
  exact ⟨t2, by simp [eraseTree, hd, heq], hbal, hino⟩

theorem eraseTree_notFound {key : α} {t : Tree α β} {p : Path α β}
    (hd : descend key t [] = Descent.notFound p) :
    eraseTree key t = EraseResult.notFound := by
  simp [eraseTree, hd]

/-! ## Order-level characterizations -/

theorem insertTree_found [Inhabited β] {key : α} {t : Tree α β} {p : Path α β}
    {c : Color} {l : Tree α β} {k : α} {v : β} {r : Tree α β}
    (hd : descend key t [] = Descent.found p c l k v r) :
    insertTree key t = t := by
  simp [insertTree, hd]

theorem insertTree_notFound [Inhabited β] {key : α} {t : Tree α β} {p : Path α β}
    (hd : descend key t [] = Descent.notFound p) :
    inorder (insertTree key t) = beforeP p ++ (key, (default : β)) :: afterP p := by
  simp [insertTree, hd, inorder_setBlack, fixInsert_inorder, inorder]

theorem inorder_of_notFound {key : α} {t : Tree α β} {p : Path α β}
    (hd : descend key t [] = Descent.notFound p) :
    inorder t = beforeP p ++ afterP p := by
  have h := descend_notFound_plug hd
  simp only [plug] at h
  rw [← h, inorder_plug]
  simp [inorder]

theorem inorder_of_found {key : α} {t : Tree α β} {p : Path α β}
    {c : Color} {l : Tree α β} {k : α} {v : β} {r : Tree α β}
    (hd : descend key t [] = Descent.found p c l k v r) :
    inorder t = beforeP p ++ inorder l ++ (k, v) :: inorder r ++ afterP p := by
  have h := descend_found_plug hd
  simp only [plug] at h
  rw [← h, inorder_plug]
  simp [inorder]

theorem insertTree_sorted [Inhabited β] {key : α} {t : Tree α β}
    (hs : List.Pairwise (· < ·) (keys t)) :
    List.Pairwise (· < ·) (keys (insertTree key t)) := by
  cases hd : descend key t ([] : Path α β) with
  | found p c l k v r => rw [insertTree_found hd]; exact hs
  | notFound p =>
    have hbounds := descend_notFound_bounds hs ⟨by simp [beforeP], by simp [afterP]⟩ hd
    have hin := inorder_of_notFound hd
    have hsplit : List.Pairwise (· < ·)
        ((beforeP p).map Prod.fst ++ (afterP p).map Prod.fst) := by
      have : keys t = (beforeP p).map Prod.fst ++ (afterP p).map Prod.fst := by
        simp [keys, hin]
      rwa [this] at hs
    rw [List.pairwise_append] at hsplit
    have : keys (insertTree key t) =
        (beforeP p).map Prod.fst ++ key :: (afterP p).map Prod.fst := by
      simp [keys, insertTree_notFound hd]
    rw [this, List.pairwise_append]
    refine ⟨hsplit.1, ?_, ?_⟩
    · rw [List.pairwise_cons]
      exact ⟨fun b hb => hbounds.2 b hb, hsplit.2.1⟩
    · intro a ha b hb
      rcases List.mem_cons.mp hb with rfl | hb
      · exact hbounds.1 a ha
      · exact hsplit.2.2 a ha b hb

/-- The one-point summary of a successful erase on a valid tree: the entry at
the searched key is removed, everything else is untouched, the result is
balanced, and the removed key separates the remaining entries. -/
theorem eraseTree_removed_spec {key : α} {t : Tree α β} {n₀ : Nat}
    (hb : Balanced t BLACK n₀)
    (hs : List.Pairwise (· < ·) (keys t))
    (hmem : contains key t = true) :
    ∃ t2 B v C, eraseTree key t = EraseResult.removed t2 ∧
      (∃ m, Balanced t2 BLACK m) ∧
      inorder t = B ++ (key, v) :: C ∧ inorder t2 = B ++ C ∧
      (∀ e ∈ B, Prod.fst e < key) ∧ (∀ e ∈ C, key < Prod.fst e) := by
  rw [contains_eq_descend key t []] at hmem
  cases hd : descend key t ([] : Path α β) with
  | notFound p => rw [hd] at hmem; simp at hmem
  | found p c l k v r =>
    have hk : k = key := descend_found_key hd
    subst hk
    obtain ⟨hsnode, hbounds⟩ :=
      descend_found_bounds hs ⟨by simp [beforeP], by simp [afterP]⟩ hd
    obtain ⟨hsl, hsr, hlk, hkr⟩ := sorted_node_facts hsnode
    obtain ⟨t2, heq, hbal, hino⟩ := eraseTree_found hb hd
    refine ⟨t2, beforeP p ++ inorder l, v, inorder r ++ afterP p, heq, hbal, ?_, ?_, ?_, ?_⟩
    · rw [inorder_of_found hd]; simp
    · rw [hino]; simp
    · intro e he
      rcases List.mem_append.mp he with he | he
      · exact hbounds.1 e.1 (List.mem_map_of_mem Prod.fst he)
      · exact hlk e.1 (List.mem_map_of_mem Prod.fst he)
    · intro e he
      rcases List.mem_append.mp he with he | he
      · exact hkr e.1 (List.mem_map_of_mem Prod.fst he)
      · exact hbounds.2 e.1 (List.mem_map_of_mem Prod.fst he)

theorem eraseTree_notFound_of_not_contains {key : α} {t : Tree α β}
    (hmem : contains key t = false) :
    eraseTree key t = EraseResult.notFound := by
  rw [contains_eq_descend key t []] at hmem
  cases hd : descend key t ([] : Path α β) with
  | notFound p => exact eraseTree_notFound hd
  | found p c l k v r => rw [hd] at hmem; simp at hmem

/-- Looking up a stored entry of a sorted tree returns its value. -/
theorem find_of_mem [Inhabited β] {key : α} {v : β} {t : Tree α β}
    (hs : List.Pairwise (· < ·) (keys t)) (hmem : (key, v) ∈ inorder t) :
    find key t = v := by
  induction t with
  | nil => simp [inorder] at hmem
  | node c l k w r ihl ihr =>
    obtain ⟨hsl, hsr, hlk, hkr⟩ := sorted_node_facts hs
    rw [find]
    by_cases h1 : key = k
    · subst h1
      rw [if_pos rfl]
      simp only [inorder, List.mem_append, List.mem_cons] at hmem
      rcases hmem with hmem | hmem | hmem
      · exact absurd (hlk key (List.mem_map_of_mem Prod.fst hmem)) (lt_irrefl key)
      · exact (Prod.mk.injEq .. ▸ hmem).2.symm
      · exact absurd (hkr key (List.mem_map_of_mem Prod.fst hmem)) (lt_irrefl key)
    · rw [if_neg h1]
      simp only [inorder, List.mem_append, List.mem_cons] at hmem
      by_cases h2 : key < k
      · rw [if_pos h2]
        rcases hmem with hmem | hmem | hmem
        · exact ihl hsl hmem
        · exact absurd ((Prod.mk.injEq .. ▸ hmem).1) h1
        · exact absurd (lt_trans h2 (hkr key (List.mem_map_of_mem Prod.fst hmem)))
            (lt_irrefl key)
      · rw [if_neg h2]
        have h3 : k < key := lt_of_le_of_ne (le_of_not_lt h2) (fun e => h1 e.symm)
        rcases hmem with hmem | hmem | hmem
        · exact absurd (lt_trans (hlk key (List.mem_map_of_mem Prod.fst hmem)) h3)
            (lt_irrefl key)
        · exact absurd ((Prod.mk.injEq .. ▸ hmem).1) h1
        · exact ihr hsr hmem

/-- Looking up with no stored entry at the key returns the default value. -/
theorem find_of_not_mem [Inhabited β] {key : α} {t : Tree α β}
    (hmem : key ∉ keys t) :
    find key t = default := by
  rw [find_eq_descend key t []]
  cases hd : descend key t ([] : Path α β) with
  | found p c l k v r => exact absurd (descend_found_mem hd) hmem
  | notFound p => rfl

/-- `upsertRead` agrees with `find`: the reference returned by `operator[]`
exposes exactly what a subsequent lookup copies. -/
theorem upsertRead_eq_find [Inhabited β] (key : α) (t : Tree α β) :
    upsertRead key t = find key t := by
  rw [upsertRead, find_eq_descend key t []]

/-- Writing through the reference and then looking up returns the written
value, provided the key is present (which `operator[]` guarantees). -/
theorem find_writeAt [Inhabited β] {key : α} {v : β} {t : Tree α β}
    (hc : contains key t = true) : find key (writeAt key v t) = v := by
  induction t with
  | nil => simp [contains] at hc
  | node c l k w r ihl ihr =>
    rw [contains] at hc
    rw [writeAt]
    by_cases h1 : key = k
    · simp [if_pos h1, find, h1]
    · rw [if_neg h1]
      by_cases h2 : key < k
      · rw [if_pos h2, find, if_neg h1, if_pos h2]
        rw [if_neg h1, if_pos h2] at hc
        exact ihl hc
      · rw [if_neg h2, find, if_neg h1, if_neg h2]
        rw [if_neg h1, if_neg h2] at hc
        exact ihr hc

/-- The key just inserted is present afterwards. -/
theorem insertTree_mem [Inhabited β] {key : α} {t : Tree α β} {p : Path α β}
    (hd : descend key t [] = Descent.notFound p) :
    (key, (default : β)) ∈ inorder (insertTree key t) := by
  rw [insertTree_notFound hd]
  simp

/-! ## Map-level invariant and operation lemmas -/

/-- The invariant of every reachable map state: a balanced BLACK-rooted tree,
strictly increasing key sequence, and a size counter equal to the number of
stored entries. -/
structure Good (s : PMap α β) : Prop where
  bal : ∃ n, Balanced s.root BLACK n
  sorted : List.Pairwise (· < ·) (keys s.root)
  size_eq : s.size_ = (inorder s.root).length

theorem sortedB_iff {l : List α} :
    sortedB l = true ↔ List.Pairwise (· < ·) l := by
  rw [← List.chain'_iff_pairwise]
  induction l with
  | nil => simp [sortedB]
  | cons a l ih =>
    cases l with
    | nil => simp [sortedB]
    | cons b l2 =>
      rw [sortedB, List.chain'_cons, Bool.and_eq_true, decide_eq_true_eq, ih]

/-- Executable form of the reachable-state invariant. -/
def wfB (s : PMap α β) : Bool :=
  redOkB s.root && (bh? s.root).isSome && !isRed s.root &&
    sortedB (keys s.root) && (s.size_ == (inorder s.root).length)

theorem good_of_wfB {s : PMap α β} (h : wfB s = true) : Good s := by
  rw [wfB] at h
  simp only [Bool.and_eq_true, Bool.not_eq_true', Option.isSome_iff_exists,
    beq_iff_eq] at h
  obtain ⟨⟨⟨⟨hrok, n, hbh⟩, hnred⟩, hsor⟩, hsz⟩ := h
  obtain ⟨c, hb⟩ := balanced_of_checks s.root n hrok hbh
  have hc := hb.black_of_not_red hnred
  subst hc
  exact ⟨⟨n, hb⟩, sortedB_iff.mp hsor, hsz⟩

theorem wfB_of_good {s : PMap α β} (h : Good s) : wfB s = true := by
  obtain ⟨⟨n, hb⟩, hsor, hsz⟩ := h
  rw [wfB]
  simp [hb.redOk, hb.bh, hb.not_red, sortedB_iff.mpr hsor, hsz]

theorem good_emptyMap (cap : Nat) : Good (emptyMap (α := α) (β := β) cap) :=
  ⟨⟨0, Balanced.nil⟩, by simp [emptyMap, keys, inorder], by simp [emptyMap, inorder]⟩

theorem upsertMap_found [Inhabited β] {key : α} {s : PMap α β} {p : Path α β}
    {c : Color} {l : Tree α β} {k : α} {v : β} {r : Tree α β}
    (hd : descend key s.root [] = Descent.found p c l k v r) :
    upsertMap key s = s := by
  simp [upsertMap, hd]

theorem upsertMap_notFound [Inhabited β] {key : α} {s : PMap α β} {p : Path α β}
    (hd : descend key s.root [] = Descent.notFound p) :
    upsertMap key s =
      { root := insertTree key s.root, size_ := s.size_ + 1, pool := s.pool.create } := by
  simp [upsertMap, insertTree, hd]

theorem mem_keys_insertTree [Inhabited β] {key j : α} {t : Tree α β} :
    j ∈ keys (insertTree key t) ↔ j = key ∨ j ∈ keys t := by
  cases hd : descend key t ([] : Path α β) with
  | found p c l k v r =>
    rw [insertTree_found hd]
    have hmem := descend_found_mem hd
    constructor
    · exact Or.inr
    · rintro (rfl | h)
      · exact hmem
      · exact h
  | notFound p =>
    have h1 : keys (insertTree key t) =
        (beforeP p).map Prod.fst ++ key :: (afterP p).map Prod.fst := by
      simp [keys, insertTree_notFound hd]
    have h2 : keys t = (beforeP p).map Prod.fst ++ (afterP p).map Prod.fst := by
      simp [keys, inorder_of_notFound hd]
    rw [h1, h2]
    simp only [List.mem_append, List.mem_cons]
    tauto

theorem good_upsertMap [Inhabited β] {key : α} {s : PMap α β} (h : Good s) :
    Good (upsertMap key s) := by
  cases hd : descend key s.root ([] : Path α β) with
  | found p c l k v r => rw [upsertMap_found hd]; exact h
  | notFound p =>
    rw [upsertMap_notFound hd]
    obtain ⟨⟨n, hb⟩, hsor, hsz⟩ := h
    refine ⟨?_, ?_, ?_⟩
    · exact insertTree_balanced hb
    · exact insertTree_sorted hsor
    · show s.size_ + 1 = (inorder (insertTree key s.root)).length
      rw [insertTree_notFound hd, hsz, inorder_of_notFound hd]
      simp
      omega

theorem eraseMap_absent {key : α} {s : PMap α β}
    (hc : contains key s.root = false) :
    eraseMap key s = some (s, 0) := by
  simp [eraseMap, eraseTree_notFound_of_not_contains hc]

theorem eraseMap_present {key : α} {s : PMap α β} (h : Good s)
    (hc : contains key s.root = true) :
    ∃ s2 B v C, eraseMap key s = some (s2, 1) ∧ Good s2 ∧
      s2.size_ + 1 = s.size_ ∧ s2.pool = s.pool.recycle ∧
      inorder s.root = B ++ (key, v) :: C ∧ inorder s2.root = B ++ C ∧
      (∀ e ∈ B, Prod.fst e < key) ∧ (∀ e ∈ C, key < Prod.fst e) := by
  obtain ⟨⟨n, hb⟩, hsor, hsz⟩ := h
  obtain ⟨t2, B, v, C, heq, hbal, hin1, hin2, hBlt, hCgt⟩ :=
    eraseTree_removed_spec hb hsor hc
  have hs2 : List.Pairwise (· < ·) (keys t2) := by
    have hsub : List.Sublist (inorder t2) (inorder s.root) := by
      rw [hin1, hin2]
      exact (List.Sublist.refl B).append (List.sublist_cons_self _ _)
    have hksub : List.Sublist (keys t2) (keys s.root) := List.Sublist.map Prod.fst hsub
    exact hsor.sublist hksub
  refine ⟨{ root := t2, size_ := s.size_ - 1, pool := s.pool.recycle }, B, v, C,
    by simp [eraseMap, heq], ⟨hbal, hs2, ?_⟩, ?_, rfl, hin1, hin2, hBlt, hCgt⟩
  · show s.size_ - 1 = (inorder t2).length
    rw [hin2, hsz, hin1]
    simp
  · show s.size_ - 1 + 1 = s.size_
    have : 1 ≤ s.size_ := by
      rw [hsz, hin1]
      simp
      omega
    omega

theorem good_applyOp [Inhabited β] {s : PMap α β} {o : Op α} (h : Good s) :
    ∃ s2, applyOp s o = some s2 ∧ Good s2 := by
  cases o with
  | upsert k => exact ⟨upsertMap k s, rfl, good_upsertMap h⟩
  | erase k =>
    cases hc : contains k s.root with
    | false => exact ⟨s, by simp [applyOp, eraseMap_absent hc], h⟩
    | true =>
      obtain ⟨s2, B, v, C, heq, hg2, _⟩ := eraseMap_present h hc
      exact ⟨s2, by simp [applyOp, heq], hg2⟩

theorem good_applyOps [Inhabited β] {ops : List (Op α)} :
    ∀ {s : PMap α β}, Good s → ∃ s2, applyOps ops s = some s2 ∧ Good s2 := by
  induction ops with
  | nil => intro s h; exact ⟨s, rfl, h⟩
  | cons o os ih =>
    intro s h
    obtain ⟨s1, heq1, hg1⟩ := good_applyOp (o := o) h
    obtain ⟨s2, heq2, hg2⟩ := ih hg1
    exact ⟨s2, by simp [applyOps, heq1, heq2], hg2⟩

theorem good_run [Inhabited β] (ops : List (Op α)) (cap : Nat) :
    ∃ s : PMap α β, run ops cap = some s ∧ Good s :=
  good_applyOps (good_emptyMap cap)

/-! ## Instrumented run: counting inserting upserts and successful erases -/

/-- Runs the operations while counting the upserts that inserted a new entry
and the erases that removed one. -/
def runCounts [Inhabited β] : List (Op α) → PMap α β → Option (PMap α β × Nat × Nat)
  | [], s => some (s, 0, 0)
  | Op.upsert k :: os, s =>
    match runCounts os (upsertMap k s) with
    | none => none
    | some (s2, ins, dels) =>
      some (s2, (if contains k s.root then ins else ins + 1), dels)
  | Op.erase k :: os, s =>
    match eraseMap k s with
    | none => none
    | some (s1, cnt) =>
      match runCounts os s1 with
      | none => none
      | some (s2, ins, dels) => some (s2, ins, dels + cnt)

/-- The instrumented runner computes the same states as `applyOps`. -/
theorem runCounts_fst [Inhabited β] (ops : List (Op α)) :
    ∀ s : PMap α β, applyOps ops s = (runCounts ops s).map Prod.fst := by
  induction ops with
  | nil => intro s; rfl
  | cons o os ih =>
    intro s
    cases o with
    | upsert k =>
      rw [applyOps]
      show applyOps os (upsertMap k s) = _
      rw [ih (upsertMap k s), runCounts]
      cases runCounts os (upsertMap k s) with
      | none => rfl
      | some x => rcases x with ⟨s2, ins, dels⟩; rfl
    | erase k =>
      rw [applyOps, runCounts]
      cases he : eraseMap k s with
      | none => simp [applyOp, he]
      | some x =>
        rcases x with ⟨s1, cnt⟩
        have ha : applyOp s (Op.erase k) = some s1 := by simp [applyOp, he]
        simp only [ha]
        show applyOps os s1 = _
        rw [ih s1]
        cases runCounts os s1 with
        | none => rfl
        | some y => rcases y with ⟨s2, ins, dels⟩; rfl

theorem runCounts_size [Inhabited β] {ops : List (Op α)} :
    ∀ {s : PMap α β}, Good s →
      ∃ s2 ins dels, runCounts ops s = some (s2, ins, dels) ∧ Good s2 ∧
        s2.size_ + dels = s.size_ + ins ∧
        s2.size_ = (inorder s2.root).length := by
  induction ops with
  | nil => intro s h; exact ⟨s, 0, 0, rfl, h, rfl, h.size_eq⟩
  | cons o os ih =>
    intro s h
    cases o with
    | upsert k =>
      have hgu : Good (upsertMap k s) := good_upsertMap h
      obtain ⟨s2, ins, dels, heq, hg2, harith, hlen⟩ := ih hgu
      cases hd : descend k s.root ([] : Path α β) with
      | found p c l kk v r =>
        have hc : contains k s.root = true := by
          rw [contains_eq_descend k s.root [], hd]
        refine ⟨s2, ins, dels, ?_, hg2, ?_, hlen⟩
        · rw [runCounts, heq]
          simp [hc]
        · rw [harith, upsertMap_found hd]
      | notFound p =>
        have hc : contains k s.root = false := by
          rw [contains_eq_descend k s.root [], hd]
        refine ⟨s2, ins + 1, dels, ?_, hg2, ?_, hlen⟩
        · rw [runCounts, heq]
          simp [hc]
        · rw [upsertMap_notFound hd] at harith
          simp at harith
          omega
    | erase k =>
      cases hc : contains k s.root with
      | false =>
        obtain ⟨s2, ins, dels, heq, hg2, harith, hlen⟩ := ih h
        refine ⟨s2, ins, dels, ?_, hg2, harith, hlen⟩
        simp only [runCounts, eraseMap_absent hc, heq]
        simp
      | true =>
        obtain ⟨s1, B, v, C, heq1, hg1, hsz1, _, _, _, _, _⟩ := eraseMap_present h hc
        obtain ⟨s2, ins, dels, heq, hg2, harith, hlen⟩ := ih hg1
        refine ⟨s2, ins, dels + 1, ?_, hg2, ?_, hlen⟩
        · simp only [runCounts, heq1, heq]
        · omega

/-! ## Pool arithmetic for the reuse scenario -/

theorem Pool.create_of_free {p : Pool} (h : 0 < p.freeSlots) :
    p.create = { p with freeSlots := p.freeSlots - 1 } := by
  simp [Pool.create, h]

/-- Erasing a list of distinct, present keys: every erase hits, each recycles
one slot into the free list, segments are untouched, and no new keys appear. -/
theorem erasePhase [Inhabited β] {ks : List α} :
    ∀ {s : PMap α β}, Good s → ks.Nodup → (∀ k ∈ ks, contains k s.root = true) →
      ∃ s1, applyOps (ks.map Op.erase) s = some s1 ∧ Good s1 ∧
        s1.pool.segments = s.pool.segments ∧
        s1.pool.segCapacity = s.pool.segCapacity ∧
        s1.pool.bumpRemaining = s.pool.bumpRemaining ∧
        s1.pool.freeSlots = s.pool.freeSlots + ks.length ∧
        (∀ j, j ∈ keys s1.root → j ∈ keys s.root) := by
  induction ks with
  | nil =>
    intro s h _ _
    exact ⟨s, rfl, h, rfl, rfl, rfl, rfl, fun j hj => hj⟩
  | cons k ks ih =>
    intro s h hnd hpres
    obtain ⟨hknotin, hndk⟩ := List.nodup_cons.mp hnd
    obtain ⟨s1, B, v, C, heq1, hg1, hsz1, hpool1, hin1, hin2, hBlt, hCgt⟩ :=
      eraseMap_present h (hpres k (by simp))
    have hkeys1 : keys s1.root = B.map Prod.fst ++ C.map Prod.fst := by
      simp [keys, hin2]
    have hkeys0 : keys s.root = B.map Prod.fst ++ k :: C.map Prod.fst := by
      simp [keys, hin1]
    have hsub : ∀ j, j ∈ keys s1.root → j ∈ keys s.root := by
      intro j hj
      rw [hkeys1, List.mem_append] at hj
      rw [hkeys0, List.mem_append, List.mem_cons]
      tauto
    have hrest : ∀ k2 ∈ ks, contains k2 s1.root = true := by
      intro k2 hk2
      have hne : k2 ≠ k := fun e => hknotin (e ▸ hk2)
      have h0 : k2 ∈ keys s.root :=
        (contains_iff_mem h.sorted).mp (hpres k2 (by simp [hk2]))
      rw [hkeys0, List.mem_append, List.mem_cons] at h0
      refine (contains_iff_mem hg1.sorted).mpr ?_
      rw [hkeys1, List.mem_append]
      rcases h0 with h0 | h0 | h0
      · exact Or.inl h0
      · exact absurd h0 hne
      · exact Or.inr h0
    obtain ⟨s2, heq2, hg2, hseg, hcap, hbump, hfree, hsub2⟩ := ih hg1 hndk hrest
    refine ⟨s2, ?_, hg2, ?_, ?_, ?_, ?_, fun j hj => hsub j (hsub2 j hj)⟩
    · simp only [List.map_cons, applyOps, applyOp, heq1, Option.map_some]
      exact heq2
    · rw [hseg, hpool1]; rfl
    · rw [hcap, hpool1]; rfl
    · rw [hbump, hpool1]; rfl
    · rw [hfree, hpool1]
      show s.pool.freeSlots + 1 + ks.length = s.pool.freeSlots + (ks.length + 1)
      omega

/-- Upserting a list of distinct, absent keys when the free list has enough
recycled slots: every upsert inserts a node popped from the free list, and no
segment is allocated. -/
theorem upsertPhase [Inhabited β] {ks : List α} :
    ∀ {s : PMap α β}, Good s → ks.Nodup → (∀ k ∈ ks, contains k s.root = false) →
      ks.length ≤ s.pool.freeSlots →
      ∃ s2, applyOps (ks.map Op.upsert) s = some s2 ∧ Good s2 ∧
        s2.pool.segments = s.pool.segments ∧
        s2.pool.segCapacity = s.pool.segCapacity ∧
        s2.pool.bumpRemaining = s.pool.bumpRemaining ∧
        s2.pool.freeSlots = s.pool.freeSlots - ks.length := by
  induction ks with
  | nil =>
    intro s h _ _ _
    exact ⟨s, rfl, h, rfl, rfl, rfl, rfl⟩
  | cons k ks ih =>
    intro s h hnd habs hlen
    obtain ⟨hknotin, hndk⟩ := List.nodup_cons.mp hnd
    have hck : contains k s.root = false := habs k (by simp)
    have hd : ∃ p, descend k s.root [] = Descent.notFound p := by
      rw [contains_eq_descend k s.root []] at hck
      cases hd2 : descend k s.root ([] : Path α β) with
      | found p c l kk v r => rw [hd2] at hck; simp at hck
      | notFound p => exact ⟨p, rfl⟩
    obtain ⟨p, hd⟩ := hd
    have hfree : 0 < s.pool.freeSlots := by
      simp at hlen
      omega
    have hup := upsertMap_notFound (s := s) hd
    have hg1 : Good (upsertMap k s) := good_upsertMap h
    have habs1 : ∀ k2 ∈ ks, contains k2 (upsertMap k s).root = false := by
      intro k2 hk2
      have hne : k2 ≠ k := fun e => hknotin (e ▸ hk2)
      have h0 : k2 ∉ keys s.root := by
        intro hmem
        have := (contains_iff_mem h.sorted).mpr hmem
        rw [habs k2 (by simp [hk2])] at this
        cases this
      rw [← Bool.not_eq_true]
      intro hc2
      have := (contains_iff_mem hg1.sorted).mp hc2
      rw [hup] at this
      simp only at this
      rcases mem_keys_insertTree.mp this with rfl | hmem
      · exact hne rfl
      · exact h0 hmem
    have hpool1 : (upsertMap k s).pool =
        { s.pool with freeSlots := s.pool.freeSlots - 1 } := by
      rw [hup]
      exact Pool.create_of_free hfree
    have hlen1 : ks.length ≤ (upsertMap k s).pool.freeSlots := by
      rw [hpool1]
      simp at hlen
      simp
      omega
    obtain ⟨s2, heq2, hg2, hseg, hcap, hbump, hfree2⟩ := ih hg1 hndk habs1 hlen1
    refine ⟨s2, ?_, hg2, ?_, ?_, ?_, ?_⟩
    · simp only [List.map_cons, applyOps, applyOp]
      exact heq2
    · rw [hseg, hpool1]
    · rw [hcap, hpool1]
    · rw [hbump, hpool1]
    · rw [hfree2, hpool1]
      show s.pool.freeSlots - 1 - ks.length = s.pool.freeSlots - (ks.length + 1)
      omega

/-! ## Claim theorems -/

/-- The keys of the upsert operations of a sequence, in order (used to state
the spec sentence about the number of distinct keys ever upserted). -/
def upsertedKeys : List (Op α) → List α :=
  List.filterMap fun o =>
    match o with
    | Op.upsert k => some k
    | Op.erase _ => none

theorem clearPool_spec (t : Tree α β) : ∀ pl : Pool,
    clearPool t pl = { pl with freeSlots := pl.freeSlots + (inorder t).length } := by
  induction t with
  | nil => intro pl; cases pl; simp [clearPool, inorder]
  | node c l k v r ihl ihr =>
    intro pl
    rw [clearPool, ihl pl, ihr]
    cases pl
    simp [Pool.recycle, inorder]
    omega

/-- C1: for every sequence of upsert and erase operations applied to the
initially empty map, every state the run reaches satisfies the red-black
invariants: no RED node has a RED child (so every RED node has a BLACK
parent), every path from the root to a null leaf passes the same number of
BLACK nodes (`bh?` returns `some`), and the root is BLACK or the tree is
empty (`isRed` is false).  The operation list is arbitrary, so the property
holds after each prefix, i.e. after each operation completes. -/
theorem claim_c1_rb_invariants [Inhabited β] (ops : List (Op α)) (cap : Nat)
    (s : PMap α β) (h : run ops cap = some s) :
    redOkB s.root = true ∧ (bh? s.root).isSome = true ∧ isRed s.root = false := by
  obtain ⟨s2, heq, hg⟩ := good_run (β := β) ops cap
  rw [h] at heq
  injection heq with heq
  subst heq
  obtain ⟨n, hb⟩ := hg.bal
  refine ⟨hb.redOk, ?_, hb.not_red⟩
  rw [hb.bh]
  rfl

theorem claim_c1_rb_invariants_witness :
    redOkB (⟨Tree.node BLACK (Tree.node RED Tree.nil 1 0 Tree.nil) 3 0 Tree.nil, 2,
        ⟨4, 1, 1, 1⟩⟩ : PMap Nat Nat).root = true ∧
    (bh? (⟨Tree.node BLACK (Tree.node RED Tree.nil 1 0 Tree.nil) 3 0 Tree.nil, 2,
        ⟨4, 1, 1, 1⟩⟩ : PMap Nat Nat).root).isSome = true ∧
    isRed (⟨Tree.node BLACK (Tree.node RED Tree.nil 1 0 Tree.nil) 3 0 Tree.nil, 2,
        ⟨4, 1, 1, 1⟩⟩ : PMap Nat Nat).root = false :=
  claim_c1_rb_invariants [Op.upsert 2, Op.upsert 1, Op.upsert 3, Op.erase 2] 4 _ (by decide)

/-- C2: for every reachable state, the visit sequence of `for_each`
(`inorder`, the in-order traversal of the source) lists the stored entries
with strictly increasing keys (`List.Pairwise (· < ·)`, which also means every
stored entry is visited exactly once), and its length is the stored-entry
count `size_`. -/
theorem claim_c2_traversal_sorted [Inhabited β] (ops : List (Op α)) (cap : Nat)
    (s : PMap α β) (h : run ops cap = some s) :
    List.Pairwise (· < ·) (keys s.root) ∧ (inorder s.root).length = s.size_ := by
  obtain ⟨s2, heq, hg⟩ := good_run (β := β) ops cap
  rw [h] at heq
  injection heq with heq
  subst heq
  exact ⟨hg.sorted, hg.size_eq.symm⟩

theorem claim_c2_traversal_sorted_witness :
    List.Pairwise (· < ·) (keys (⟨Tree.node BLACK (Tree.node RED Tree.nil 1 0 Tree.nil)
        3 0 Tree.nil, 2, ⟨4, 1, 1, 1⟩⟩ : PMap Nat Nat).root) ∧
    (inorder (⟨Tree.node BLACK (Tree.node RED Tree.nil 1 0 Tree.nil) 3 0 Tree.nil, 2,
        ⟨4, 1, 1, 1⟩⟩ : PMap Nat Nat).root).length =
      (⟨Tree.node BLACK (Tree.node RED Tree.nil 1 0 Tree.nil) 3 0 Tree.nil, 2,
        ⟨4, 1, 1, 1⟩⟩ : PMap Nat Nat).size_ :=
  claim_c2_traversal_sorted [Op.upsert 2, Op.upsert 1, Op.upsert 3, Op.erase 2] 4 _ (by decide)

/-- C3: `operator[]` on a present key returns the state unchanged (no
allocation, no size change, no tree change) and exposes the stored value;
on an absent key it links a new RED node carrying the key and the
default-constructed value at the null position reached by the descent (the
node becomes a child of the last visited node, or the root on an empty
tree), runs the insert fixup and the final root blackening, increments
`size_` by one, allocates exactly one node from the pool, and exposes the
default value; the new entry sits exactly at the hole of the descent. -/
theorem claim_c3_upsert_cases [Inhabited β] (s : PMap α β) (key : α) :
    (contains key s.root = true →
      upsertMap key s = s ∧
      ∃ v, (key, v) ∈ inorder s.root ∧ upsertRead key s.root = v) ∧
    (contains key s.root = false →
      ∃ p, descend key s.root [] = Descent.notFound p ∧
        (upsertMap key s).root =
          setBlack (fixInsert p (Tree.node RED Tree.nil key default Tree.nil)) ∧
        (upsertMap key s).size_ = s.size_ + 1 ∧
        (upsertMap key s).pool = s.pool.create ∧
        upsertRead key s.root = default ∧
        inorder (upsertMap key s).root = beforeP p ++ (key, default) :: afterP p) := by
  constructor
  · intro hc
    rw [contains_eq_descend key s.root []] at hc
    cases hd : descend key s.root ([] : Path α β) with
    | notFound p => rw [hd] at hc; simp at hc
    | found p c l k v r =>
      have hk := descend_found_key hd
      subst hk
      refine ⟨upsertMap_found hd, v, ?_, by simp [upsertRead, hd]⟩
      rw [inorder_of_found hd]
      simp
  · intro hc
    rw [contains_eq_descend key s.root []] at hc
    cases hd : descend key s.root ([] : Path α β) with
    | found p c l k v r => rw [hd] at hc; simp at hc
    | notFound p =>
      refine ⟨p, rfl, ?_, ?_, ?_, by simp [upsertRead, hd], ?_⟩
      · rw [upsertMap_notFound hd]
        show insertTree key s.root = _
        simp [insertTree, hd]
      · rw [upsertMap_notFound hd]
      · rw [upsertMap_notFound hd]
      · rw [upsertMap_notFound hd]
        show inorder (insertTree key s.root) = _
        exact insertTree_notFound hd

/-- C4: erasing a present key returns 1, removes exactly that one entry
(every other entry is kept, in order), decrements `size_` by one, and the key
is absent afterwards; erasing an absent key returns 0 with the whole state
(tree, size and pool) unchanged. -/
theorem claim_c4_erase_cases (s : PMap α β) (key : α) (hw : wfB s = true) :
    (contains key s.root = true →
      ∃ s2 B v C, eraseMap key s = some (s2, 1) ∧
        s2.size_ + 1 = s.size_ ∧ contains key s2.root = false ∧
        inorder s.root = B ++ (key, v) :: C ∧ inorder s2.root = B ++ C) ∧
    (contains key s.root = false → eraseMap key s = some (s, 0)) := by
  have h := good_of_wfB hw
  constructor
  · intro hc
    obtain ⟨s2, B, v, C, heq, hg2, hsz, hpool, hin1, hin2, hBlt, hCgt⟩ :=
      eraseMap_present h hc
    refine ⟨s2, B, v, C, heq, hsz, ?_, hin1, hin2⟩
    rw [← Bool.not_eq_true]
    intro hc2
    have hmem := (contains_iff_mem hg2.sorted).mp hc2
    have hkeys : keys s2.root = B.map Prod.fst ++ C.map Prod.fst := by
      simp [keys, hin2]
    rw [hkeys, List.mem_append] at hmem
    rcases hmem with hm | hm
    · obtain ⟨e, he, he2⟩ := List.mem_map.mp hm
      exact absurd (he2 ▸ hBlt e he) (lt_irrefl key)
    · obtain ⟨e, he, he2⟩ := List.mem_map.mp hm
      exact absurd (he2 ▸ hCgt e he) (lt_irrefl key)
  · intro hc
    exact eraseMap_absent hc

theorem claim_c4_erase_cases_witness :
    ∃ (s2 : PMap Nat Nat) (B : List (Nat × Nat)) (v : Nat) (C : List (Nat × Nat)),
      eraseMap 3 (⟨Tree.node BLACK (Tree.node RED Tree.nil 1 0 Tree.nil) 3 0 Tree.nil, 2,
          ⟨4, 1, 1, 1⟩⟩ : PMap Nat Nat) = some (s2, 1) ∧
      s2.size_ + 1 = (⟨Tree.node BLACK (Tree.node RED Tree.nil 1 0 Tree.nil) 3 0 Tree.nil,
          2, ⟨4, 1, 1, 1⟩⟩ : PMap Nat Nat).size_ ∧
      contains 3 s2.root = false ∧
      inorder (⟨Tree.node BLACK (Tree.node RED Tree.nil 1 0 Tree.nil) 3 0 Tree.nil, 2,
          ⟨4, 1, 1, 1⟩⟩ : PMap Nat Nat).root = B ++ (3, v) :: C ∧
      inorder s2.root = B ++ C :=
  (claim_c4_erase_cases
      (⟨Tree.node BLACK (Tree.node RED Tree.nil 1 0 Tree.nil) 3 0 Tree.nil, 2,
        ⟨4, 1, 1, 1⟩⟩ : PMap Nat Nat) 3 (by decide)).1 (by decide)

/-- C5: the value exposed by `operator[]` and the value a following `find`
copies agree: after an upsert of an absent key, `find` returns the
default-constructed value; after an upsert of a present key, `find` returns
the previously stored value; and after writing `v` through the returned
reference, `find` returns `v`. -/
theorem claim_c5_upsert_find_roundtrip [Inhabited β] (t : Tree α β) (key : α)
    (hs : sortedB (keys t) = true) :
    (contains key t = false → find key (insertTree key t) = default) ∧
    (∀ v : β, (key, v) ∈ inorder t → find key (insertTree key t) = v) ∧
    (∀ v : β, find key (writeAt key v (insertTree key t)) = v) := by
  have hsp := sortedB_iff.mp hs
  refine ⟨?_, ?_, ?_⟩
  · intro hc
    rw [contains_eq_descend key t []] at hc
    cases hd : descend key t ([] : Path α β) with
    | found p c l k v r => rw [hd] at hc; simp at hc
    | notFound p =>
      exact find_of_mem (insertTree_sorted hsp) (insertTree_mem hd)
  · intro v hmem
    have hc : contains key t = true :=
      (contains_iff_mem hsp).mpr (List.mem_map_of_mem Prod.fst hmem)
    rw [contains_eq_descend key t []] at hc
    cases hd : descend key t ([] : Path α β) with
    | notFound p => rw [hd] at hc; simp at hc
    | found p c l k v2 r =>
      rw [insertTree_found hd]
      exact find_of_mem hsp hmem
  · intro v
    apply find_writeAt
    cases hd : descend key t ([] : Path α β) with
    | found p c l k v2 r =>
      rw [insertTree_found hd, contains_eq_descend key t [], hd]
    | notFound p =>
      exact (contains_iff_mem (insertTree_sorted hsp)).mpr
        (List.mem_map_of_mem Prod.fst (insertTree_mem hd))

theorem claim_c5_upsert_find_roundtrip_witness :
    find 2 (insertTree 2 (Tree.node BLACK (Tree.node RED Tree.nil 1 0 Tree.nil)
        3 0 Tree.nil : Tree Nat Nat)) = 0 ∧
    find 2 (writeAt 2 9 (insertTree 2 (Tree.node BLACK
        (Tree.node RED Tree.nil 1 0 Tree.nil) 3 0 Tree.nil : Tree Nat Nat))) = 9 :=
  ⟨(claim_c5_upsert_find_roundtrip (Tree.node BLACK (Tree.node RED Tree.nil 1 0 Tree.nil)
      3 0 Tree.nil : Tree Nat Nat) 2 (by decide)).1 (by decide),
   (claim_c5_upsert_find_roundtrip (Tree.node BLACK (Tree.node RED Tree.nil 1 0 Tree.nil)
      3 0 Tree.nil : Tree Nat Nat) 2 (by decide)).2.2 9⟩

/-- C7: `find` returns a copy of the stored value when the key is stored and
the default-constructed value when it is absent; in particular, when the
stored value is the default, `find` gives the same answer as for an absent
key, so the caller cannot distinguish the two outcomes. -/
theorem claim_c7_find_sentinel [Inhabited β] (t : Tree α β) (key : α)
    (hs : sortedB (keys t) = true) :
    (∀ v : β, (key, v) ∈ inorder t → find key t = v) ∧
    (key ∉ keys t → find key t = default) ∧
    ((key, (default : β)) ∈ inorder t → find key t = default) := by
  have hsp := sortedB_iff.mp hs
  refine ⟨fun v hv => find_of_mem hsp hv, fun hnm => find_of_not_mem hnm,
    fun hv => find_of_mem hsp hv⟩

theorem claim_c7_find_sentinel_witness :
    find 1 (Tree.node BLACK (Tree.node RED Tree.nil 1 0 Tree.nil)
        3 0 Tree.nil : Tree Nat Nat) = 0 ∧
    find 2 (Tree.node BLACK (Tree.node RED Tree.nil 1 0 Tree.nil)
        3 0 Tree.nil : Tree Nat Nat) = 0 :=
  ⟨(claim_c7_find_sentinel (Tree.node BLACK (Tree.node RED Tree.nil 1 0 Tree.nil)
      3 0 Tree.nil : Tree Nat Nat) 1 (by decide)).2.2 (by decide),
   (claim_c7_find_sentinel (Tree.node BLACK (Tree.node RED Tree.nil 1 0 Tree.nil)
      3 0 Tree.nil : Tree Nat Nat) 2 (by decide)).2.1 (by decide)⟩

/-- C6 counterexample: the claim as stated fails.  For the sequence
upsert 1, upsert 2, erase 2, upsert 2 the final size is 2, but the number of
distinct keys ever upserted is 2 and the number of successful erases is 1,
and 2 ≠ 2 - 1. -/
theorem claim_c6_counterexample :
    (run (α := Nat) (β := Nat)
        [Op.upsert 1, Op.upsert 2, Op.erase 2, Op.upsert 2] 4).map
        PMap.size_ = some 2 ∧
    (upsertedKeys
        [Op.upsert (1 : Nat), Op.upsert 2, Op.erase 2, Op.upsert 2]).dedup.length = 2 ∧
    (runCounts [Op.upsert (1 : Nat), Op.upsert 2, Op.erase 2, Op.upsert 2]
        (emptyMap (β := Nat) 4)).map (fun x => x.2.2) = some 1 ∧
    ¬ (2 : Nat) = 2 - 1 := by
  decide

/-- C6 (amended): for every operation sequence run from the empty map,
`size()` equals the number of upserts that actually inserted a new entry
minus the number of successful erases (stated additively to avoid truncated
subtraction), and equals the number of entries `for_each` enumerates. -/
theorem claim_c6_amended_size [Inhabited β] (ops : List (Op α)) (cap : Nat) :
    ∃ (s : PMap α β) (ins dels : Nat),
      runCounts ops (emptyMap cap) = some (s, ins, dels) ∧
      run ops cap = some s ∧
      s.size_ + dels = ins ∧
      s.size_ = (inorder s.root).length := by
  have hrc : ∃ (s : PMap α β) (ins dels : Nat),
      runCounts ops (emptyMap cap) = some (s, ins, dels) ∧ Good s ∧
      s.size_ + dels = (emptyMap (β := β) cap).size_ + ins ∧
      s.size_ = (inorder s.root).length :=
    runCounts_size (good_emptyMap cap)
  obtain ⟨s, ins, dels, heq, hg, harith, hlen⟩ := hrc
  refine ⟨s, ins, dels, heq, ?_, ?_, hlen⟩
  · rw [run, runCounts_fst ops (emptyMap cap), heq]
    rfl
  · simpa [emptyMap] using harith

/-- C8 counterexample: the claim as stated fails.  After upsert 7 from the
empty map, running the clear walk leaves `size_` at 1 and the root pointing
at the (recycled) node, so the map is not empty. -/
theorem claim_c8_counterexample :
    run (α := Nat) (β := Nat) [Op.upsert 7] 1 =
      some ⟨Tree.node BLACK Tree.nil 7 0 Tree.nil, 1, ⟨1, 0, 0, 1⟩⟩ ∧
    (clearMap (⟨Tree.node BLACK Tree.nil 7 0 Tree.nil, 1,
        ⟨1, 0, 0, 1⟩⟩ : PMap Nat Nat)).size_ = 1 ∧
    ¬ (clearMap (⟨Tree.node BLACK Tree.nil 7 0 Tree.nil, 1,
        ⟨1, 0, 0, 1⟩⟩ : PMap Nat Nat)).size_ = 0 ∧
    ¬ (clearMap (⟨Tree.node BLACK Tree.nil 7 0 Tree.nil, 1,
        ⟨1, 0, 0, 1⟩⟩ : PMap Nat Nat)).root = Tree.nil := by
  decide

/-- C8 (amended): `clear` performs a post-order walk recycling every node
back to the pool (the free list grows by exactly the number of stored
entries; no other pool field changes), but it resets neither `root` nor
`size_` — its only caller is the destructor, where the object is discarded
anyway. -/
theorem claim_c8_amended_clear (s : PMap α β) :
    clearMap s = { root := s.root, size_ := s.size_,
                   pool := { s.pool with
                             freeSlots := s.pool.freeSlots +
                               (inorder s.root).length } } := by
  rw [clearMap, clearPool_spec]

/-- C9: no run of upsert and erase operations from the empty map ever takes
the error branch of the embedding — the `none` results that model the
unguarded null dereferences of the sibling `w` in `fix_erase` (reading
`w->left` and `w->right` through a null `w`, and rotating at a null
`w->left`).  Every run returns `some` state, so whenever the loop body of
`fix_erase` executes on a reachable state, the sibling is a real node. -/
theorem claim_c9_sibling_not_null [Inhabited β] (ops : List (Op α)) (cap : Nat) :
    (run (α := α) (β := β) ops cap).isSome = true := by
  obtain ⟨s, heq, _⟩ := good_run (β := β) ops cap
  rw [heq]
  rfl

/-- C10: the pool reuse scenario.  Erasing distinct present keys recycles one
slot per erase onto the free list; afterwards upserting at most that many
distinct absent keys satisfies every node creation from the free list, so no
new segment is allocated and the current segment's bump pointer does not
move.  (`Pool` is modelled from the spec: `create` pops from the free list
if non-empty, else bump-allocates from the current segment, else allocates a
new segment; `recycle` pushes onto the free list.) -/
theorem claim_c10_pool_reuse [Inhabited β] (s : PMap α β) (ks ks2 : List α)
    (hw : wfB s = true) (hnd : ks.Nodup)
    (hpres : ∀ k ∈ ks, contains k s.root = true)
    (hnd2 : ks2.Nodup) (habs : ∀ k ∈ ks2, contains k s.root = false)
    (hlen : ks2.length ≤ ks.length) :
    ∃ s1 s2, applyOps (ks.map Op.erase) s = some s1 ∧
      applyOps (ks2.map Op.upsert) s1 = some s2 ∧
      s2.pool.segments = s.pool.segments ∧
      s2.pool.bumpRemaining = s.pool.bumpRemaining ∧
      s1.pool.freeSlots = s.pool.freeSlots + ks.length := by
  have h := good_of_wfB hw
  obtain ⟨s1, heq1, hg1, hseg1, hcap1, hbump1, hfree1, hsub1⟩ := erasePhase h hnd hpres
  have habs1 : ∀ k ∈ ks2, contains k s1.root = false := by
    intro k hk
    rw [← Bool.not_eq_true]
    intro hc
    have hm := (contains_iff_mem hg1.sorted).mp hc
    have hm0 := hsub1 k hm
    have hcon := (contains_iff_mem h.sorted).mpr hm0
    rw [habs k hk] at hcon
    cases hcon
  have hlen1 : ks2.length ≤ s1.pool.freeSlots := by
    rw [hfree1]
    omega
  obtain ⟨s2, heq2, hg2, hseg2, hcap2, hbump2, hfree2⟩ :=
    upsertPhase hg1 hnd2 habs1 hlen1
  exact ⟨s1, s2, heq1, heq2, by rw [hseg2, hseg1], by rw [hbump2, hbump1], hfree1⟩

theorem claim_c10_pool_reuse_witness :
    ∃ s1 s2,
      applyOps ([1, 3].map Op.erase)
        (⟨Tree.node BLACK (Tree.node RED Tree.nil 1 0 Tree.nil) 3 0 Tree.nil, 2,
          ⟨4, 1, 1, 1⟩⟩ : PMap Nat Nat) = some s1 ∧
      applyOps ([2, 5].map Op.upsert) s1 = some s2 ∧
      s2.pool.segments = (⟨Tree.node BLACK (Tree.node RED Tree.nil 1 0 Tree.nil)
          3 0 Tree.nil, 2, ⟨4, 1, 1, 1⟩⟩ : PMap Nat Nat).pool.segments ∧
      s2.pool.bumpRemaining = (⟨Tree.node BLACK (Tree.node RED Tree.nil 1 0 Tree.nil)
          3 0 Tree.nil, 2, ⟨4, 1, 1, 1⟩⟩ : PMap Nat Nat).pool.bumpRemaining ∧
      s1.pool.freeSlots = (⟨Tree.node BLACK (Tree.node RED Tree.nil 1 0 Tree.nil)
          3 0 Tree.nil, 2, ⟨4, 1, 1, 1⟩⟩ : PMap Nat Nat).pool.freeSlots + [1, 3].length :=
  claim_c10_pool_reuse _ [1, 3] [2, 5] (by decide) (by decide) (by decide)
    (by decide) (by decide) (by decide)

end PooledMap
